import Mathlib

/-!
# The LRU cache of the C web server (`src/cache.c`)

The cache is a hash index plus an intrusive doubly-linked recency list of
heap-allocated entries.  The embedding keeps the pointer structure: entries live
in a memory `mem` addressed by natural numbers, `NULL` is `none`, and every
function that dereferences a pointer returns `none` when the dereference is
undefined in C (null pointer, released entry, copy past the end of a buffer).
-/

namespace CWebServer

/-! ## Data model -/

/-- One `struct cache_entry`: the key `path`, the payload and its metadata, and the
two links of the recency list (`none` is `NULL`). Strings are C strings, `content`
is the byte buffer. -/
structure cache_entry where
  path : String
  content_type : String
  content_length : Int
  content : List Nat
  prev : Option Nat
  next : Option Nat
  deriving DecidableEq

/-- Modelled from the spec: the hash table of `hashtable.h` (its source is not part
of `src/`). The spec's KeyIndex contract (section 4.1) is a key-to-reference
association; the table is the lookup function it induces. -/
structure hashtable where
  lookup : String → Option Nat

/-- Modelled from the spec: `create(capacityHint)` allocates an empty index. -/
def hashtable_create (_size : Int) : hashtable :=
  ⟨fun _ => none⟩

/-- Modelled from the spec: `put(index, key, entryRef)` associates `key` with
`entryRef`, overwriting any prior association for that exact key. -/
def hashtable_put (ht : hashtable) (key : String) (data : Nat) : hashtable :=
  ⟨fun k => if k = key then some data else ht.lookup k⟩

/-- Modelled from the spec: `get(index, key)` returns the reference or absent. -/
def hashtable_get (ht : hashtable) (key : String) : Option Nat :=
  ht.lookup key

/-- Modelled from the spec: `delete(index, key)` removes the association and is a
no-op if the key is absent. -/
def hashtable_delete (ht : hashtable) (key : String) : hashtable :=
  ⟨fun k => if k = key then none else ht.lookup k⟩

/-- The `struct cache` (index, head, tail, max_size, cur_size) together with the
storage its entry pointers point into: `mem a` is the entry at address `a`, or
`none` when nothing is allocated there; `brk` is the address the next `malloc` of
an entry returns (every address from `brk` on is unallocated). The two `int`
fields are integers: `cur_size` only moves by one and stays between `0` and
`max_size + 1`, so it does not wrap for a `max_size` below `INT_MAX`. -/
structure cache where
  mem : Nat → Option cache_entry
  brk : Nat
  index : hashtable
  head : Option Nat
  tail : Option Nat
  max_size : Int
  cur_size : Int

/-! ## Memory access -/

/-- Memory after writing entry `e` at address `a`. -/
def store (m : Nat → Option cache_entry) (a : Nat) (e : cache_entry) :
    Nat → Option cache_entry :=
  fun q => if q = a then some e else m q

/-- Memory after releasing address `a`. -/
def release (m : Nat → Option cache_entry) (a : Nat) : Nat → Option cache_entry :=
  fun q => if q = a then none else m q

/-- Read through a pointer: `none` for `NULL` or an unallocated address. -/
def load (m : Nat → Option cache_entry) (p : Option Nat) : Option cache_entry :=
  match p with
  | none => none
  | some a => m a

/-- The assignment `p->next = v`. -/
def set_next (m : Nat → Option cache_entry) (p : Option Nat) (v : Option Nat) :
    Option (Nat → Option cache_entry) :=
  match p with
  | none => none
  | some a =>
    match m a with
    | none => none
    | some e => some (store m a { e with next := v })

/-- The assignment `p->prev = v`. -/
def set_prev (m : Nat → Option cache_entry) (p : Option Nat) (v : Option Nat) :
    Option (Nat → Option cache_entry) :=
  match p with
  | none => none
  | some a =>
    match m a with
    | none => none
    | some e => some (store m a { e with prev := v })

/-- The library call `memcpy(dst, src, n)` into a fresh buffer of `n` bytes: the
first `n` bytes of `src`. The `int` length is converted to `size_t`, so a negative
`n` asks for more bytes than any buffer holds; reading past the end of `src` is
undefined. -/
def memcpy (src : List Nat) (n : Int) : Option (List Nat) :=
  if 0 ≤ n ∧ n ≤ (src.length : Int) then some (src.take n.toNat) else none

/-! ## The functions of `cache.c` -/

/-- `alloc_entry`: allocate an entry at a fresh address, duplicate `path` and
`content_type`, record `content_length` and copy `content_length` bytes of
`content`. The links are not initialised here (`dllist_insert_head` assigns both
before anything reads them). Returns the new memory and the entry pointer. -/
def alloc_entry (c : cache) (path content_type : String) (content : List Nat)
    (content_length : Int) : Option (cache × Nat) :=
  match memcpy content content_length with
  | none => none
  | some bytes =>
    some ({ c with
            mem := store c.mem c.brk
              { path := path, content_type := content_type,
                content_length := content_length, content := bytes,
                prev := none, next := none }
            brk := c.brk + 1 }, c.brk)

/-- `free_entry`: release the entry (and its owned strings and buffer). -/
def free_entry (c : cache) (entry : Nat) : Option cache :=
  match c.mem entry with
  | none => none
  | some _ => some { c with mem := release c.mem entry }

/-- `dllist_insert_head`: insert `ce` at the head of the list and count it. -/
def dllist_insert_head (c : cache) (ce : Nat) : Option cache :=
  match c.head with
  | none => do
    -- cache->head = cache->tail = ce; ce->prev = ce->next = NULL;
    let m1 ← set_next c.mem (some ce) none
    let m2 ← set_prev m1 (some ce) none
    some { c with mem := m2, head := some ce, tail := some ce, cur_size := c.cur_size + 1 }
  | some h => do
    let m1 ← set_prev c.mem (some h) (some ce)   -- cache->head->prev = ce;
    let m2 ← set_next m1 (some ce) (some h)      -- ce->next = cache->head;
    let m3 ← set_prev m2 (some ce) none          -- ce->prev = NULL;
    some { c with mem := m3, head := some ce, cur_size := c.cur_size + 1 }

/-- The unlinking half of `dllist_move_to_head` (the inner `if`/`else`). -/
def dllist_unlink (c : cache) (ce : Nat) : Option cache :=
  if some ce = c.tail then do
    -- cache->tail = ce->prev; cache->tail->next = NULL;
    let e ← load c.mem (some ce)
    let m1 ← set_next c.mem e.prev none
    some { c with mem := m1, tail := e.prev }
  else do
    -- ce->prev->next = ce->next;
    let e ← load c.mem (some ce)
    let m1 ← set_next c.mem e.prev e.next
    -- ce->next->prev = ce->prev;
    let e1 ← load m1 (some ce)
    let m2 ← set_prev m1 e1.next e1.prev
    some { c with mem := m2 }

/-- `dllist_move_to_head`: move `ce` to the head of the list. -/
def dllist_move_to_head (c : cache) (ce : Nat) : Option cache :=
  if some ce ≠ c.head then do
    let c1 ← dllist_unlink c ce
    let m1 ← set_next c1.mem (some ce) c1.head   -- ce->next = cache->head;
    let m2 ← set_prev m1 c1.head (some ce)       -- cache->head->prev = ce;
    let m3 ← set_prev m2 (some ce) none          -- ce->prev = NULL;
    some { c1 with mem := m3, head := some ce }
  else some c

/-- `dllist_remove_tail`: unlink the tail and return it (without releasing it). -/
def dllist_remove_tail (c : cache) : Option (cache × Nat) :=
  match c.tail with
  | none => none
  | some oldtail => do
    let t ← load c.mem (some oldtail)
    -- cache->tail = oldtail->prev; cache->tail->next = NULL;
    let m1 ← set_next c.mem t.prev none
    some ({ c with mem := m1, tail := t.prev, cur_size := c.cur_size - 1 }, oldtail)

/-- `cache_create`: an empty cache with the given `max_size`; no entry is
allocated yet. -/
def cache_create (max_size : Int) (_hashsize : Int) : cache :=
  { mem := fun _ => none
    brk := 0
    index := hashtable_create max_size
    head := none
    tail := none
    max_size := max_size
    cur_size := 0 }

/-- `cache_put`: allocate the entry, link it at the head, index it under its path
and, if the size now exceeds `max_size`, remove the tail, delete the tail's path
from the index and release the tail. -/
def cache_put (c : cache) (path content_type : String) (content : List Nat)
    (content_length : Int) : Option cache :=
  match alloc_entry c path content_type content content_length with
  | none => none
  | some (c1, entry) =>
    match dllist_insert_head c1 entry with
    | none => none
    | some c2 =>
      match c2.mem entry with
      | none => none
      | some e =>
        let c3 := { c2 with index := hashtable_put c2.index e.path entry }
        if c3.cur_size > c3.max_size then
          match dllist_remove_tail c3 with
          | none => none
          | some (c4, prior_tail) =>
            match c4.mem prior_tail with
            | none => none
            | some t =>
              free_entry { c4 with index := hashtable_delete c4.index t.path } prior_tail
        else some c3

/-- `cache_get`: look the path up; on a miss return `NULL` and the cache as it
was, on a hit move the entry to the head and return it. -/
def cache_get (c : cache) (path : String) : Option (cache × Option Nat) :=
  match hashtable_get c.index path with
  | none => some (c, none)
  | some entry =>
    match dllist_move_to_head c entry with
    | none => none
    | some c1 => some (c1, some entry)

/-! ## Observations and runs -/

/-- Follow `next` from `p` for at most `fuel` entries. -/
def dllist_walk (m : Nat → Option cache_entry) : Nat → Option Nat → List Nat
  | 0, _ => []
  | _ + 1, none => []
  | n + 1, some a =>
    a :: dllist_walk m n (match m a with
                          | none => none
                          | some e => e.next)

/-- The recency list, head to tail, as entry pointers. Every allocated address is
below `brk`, so `brk` entries of fuel reach the end of any acyclic list. -/
def cache_list (c : cache) : List Nat :=
  dllist_walk c.mem c.brk c.head

/-- The path stored at an address (the empty string for an unallocated one). -/
def path_at (c : cache) (a : Nat) : String :=
  match c.mem a with
  | none => ""
  | some e => e.path

/-- The recency list, head to tail, as keys. -/
def cache_keys (c : cache) : List String :=
  (cache_list c).map (path_at c)

/-- One call of the public interface. -/
inductive Op where
  | put (path content_type : String) (content : List Nat) (content_length : Int)
  | get (path : String)

/-- Perform one call, dropping the value `cache_get` returns. -/
def step (c : cache) : Op → Option cache
  | Op.put p t b n => cache_put c p t b n
  | Op.get p =>
    match cache_get c p with
    | none => none
    | some (c1, _) => some c1

/-- Perform a sequence of calls, left to right. -/
def run (c : cache) : List Op → Option cache
  | [] => some c
  | o :: rest =>
    match step c o with
    | none => none
    | some c1 => run c1 rest

/-- The buffer handed to a put holds `content_length` bytes. -/
def Op.valid : Op → Prop
  | Op.put _ _ b n => 0 ≤ n ∧ n ≤ (b.length : Int)
  | Op.get _ => True

/-! ## The list representation predicate -/

/-- The pointer an entry's `next` must hold when the entries after it are `l` and
the segment is followed by `nxt`. -/
def hdOr (l : List Nat) (nxt : Option Nat) : Option Nat :=
  match l with
  | [] => nxt
  | q :: _ => some q

/-- The last entry of `l`, or `prv` when `l` is empty. -/
def lastOr : List Nat → Option Nat → Option Nat
  | [], prv => prv
  | a :: rest, _ => lastOr rest (some a)

/-- Memory `m` holds the entries `l` as a doubly-linked segment: the first entry's
`prev` is `prv`, each entry's `next` is its successor and each successor's `prev`
is the entry before it, and the last entry's `next` is `nxt`. -/
def Seg (m : Nat → Option cache_entry) : Option Nat → List Nat → Option Nat → Prop
  | _, [], _ => True
  | prv, a :: rest, nxt =>
    ∃ e, m a = some e ∧ e.prev = prv ∧ e.next = hdOr rest nxt ∧ Seg m (some a) rest nxt

/-- The payload of an entry: everything but the links. -/
def payload (e : cache_entry) : String × String × Int × List Nat :=
  (e.path, e.content_type, e.content_length, e.content)

/-- Two memories hold the same entries up to their links. -/
def SameData (m m' : Nat → Option cache_entry) : Prop :=
  ∀ a, (m' a).map payload = (m a).map payload

/-- The cache `c` holds exactly the entries `l`, head to tail, as a well-formed
doubly-linked list of `cur_size` distinct entries. -/
structure Lst (c : cache) (l : List Nat) : Prop where
  nodup : l.Nodup
  seg : Seg c.mem none l none
  head : c.head = l.head?
  tail : c.tail = l.getLast?
  size : c.cur_size = (l.length : Int)

/-- What the list operations leave alone: payloads, index, allocator and
`max_size`. -/
structure Frame (c c' : cache) : Prop where
  data : SameData c.mem c'.mem
  index : c'.index = c.index
  brk : c'.brk = c.brk
  max_size : c'.max_size = c.max_size

/-! ## The invariant of the public operations -/

/-- The invariant every cache reachable from `cache_create` satisfies, whatever
keys are put (duplicates included): the list is well formed, addresses from `brk`
on are unallocated, the index refers only to listed entries and under their own
path, the head's path is either unindexed or indexed to the head, and the size is
within the positive `max_size`. -/
structure Inv (c : cache) (l : List Nat) : Prop where
  lst : Lst c l
  fresh : ∀ a, c.brk ≤ a → c.mem a = none
  idx : ∀ k p, c.index.lookup k = some p → p ∈ l ∧ path_at c p = k
  hd : ∀ h, c.head = some h →
    c.index.lookup (path_at c h) = none ∨ c.index.lookup (path_at c h) = some h
  cap : c.cur_size ≤ c.max_size
  pos : 1 ≤ c.max_size

/-- The list after `cache_put` on a cache holding `l`: the new entry (allocated at
`brk`) in front of `l`, without the last entry of `l` when the cache was full. -/
def put_list (c : cache) (l : List Nat) : List Nat :=
  c.brk :: (if c.cur_size < c.max_size then l else l.dropLast)

/-- The index after `cache_put path` on a cache holding `l`. -/
def put_index (c : cache) (l : List Nat) (path : String) (k : String) : Option Nat :=
  if c.cur_size < c.max_size then
    (if k = path then some c.brk else c.index.lookup k)
  else if some k = l.getLast?.map (path_at c) then none
  else if k = path then some c.brk else c.index.lookup k

/-- The effect of `cache_put c path content_type content content_length` on a cache
holding the list `l`, resulting in `c'`. -/
structure PutPost (c c' : cache) (l : List Nat) (path content_type : String)
    (content : List Nat) (content_length : Int) : Prop where
  inv : Inv c' (put_list c l)
  brk : c'.brk = c.brk + 1
  max_size : c'.max_size = c.max_size
  entry : (c'.mem c.brk).map payload
    = some (path, content_type, content_length, content.take content_length.toNat)
  kept : ∀ a ∈ put_list c l, a ≠ c.brk → (c'.mem a).map payload = (c.mem a).map payload
  index : ∀ k, c'.index.lookup k = put_index c l path k
  freed : ¬ c.cur_size < c.max_size → ∀ t, l.getLast? = some t → c'.mem t = none

/-! ## The cache as an LRU list of payloads -/

/-- The payload stored at an address, if one is allocated there. -/
def payload_at (c : cache) (a : Nat) : Option (String × String × Int × List Nat) :=
  (c.mem a).map payload

/-- The payloads of the recency list, head to tail. -/
def cache_contents (c : cache) : List (Option (String × String × Int × List Nat)) :=
  (cache_list c).map (payload_at c)

/-- The payload `cache_put` stores for its arguments. -/
def stored (path content_type : String) (content : List Nat) (content_length : Int) :
    String × String × Int × List Nat :=
  (path, content_type, content_length, content.take content_length.toNat)

/-- The list of payloads after a put of `v` into a cache of capacity `max_size`
holding `vs`: `v` in front, the last of `vs` dropped if the cache was full. -/
def lru_put (max_size : Int) (vs : List (String × String × Int × List Nat))
    (v : String × String × Int × List Nat) : List (String × String × Int × List Nat) :=
  v :: (if (vs.length : Int) < max_size then vs else vs.dropLast)

/-- The cache holds exactly the payloads `vs` (at the addresses `l`), their keys
are pairwise distinct and the index maps each key to its entry. -/
structure Exact (c : cache) (l : List Nat)
    (vs : List (String × String × Int × List Nat)) : Prop where
  inv : Inv c l
  contents : l.map (payload_at c) = vs.map some
  keys : (vs.map Prod.fst).Nodup
  corr : ∀ p ∈ l, c.index.lookup (path_at c p) = some p

/-! ## Sequences of puts -/

/-- The arguments of one `cache_put` call. -/
structure PutArgs where
  path : String
  content_type : String
  content : List Nat
  content_length : Int

/-- The call `cache_put(cache, path, content_type, content, content_length)`. -/
def PutArgs.op (x : PutArgs) : Op :=
  Op.put x.path x.content_type x.content x.content_length

/-- The buffer holds `content_length` bytes. -/
def PutArgs.valid (x : PutArgs) : Prop :=
  0 ≤ x.content_length ∧ x.content_length ≤ (x.content.length : Int)

/-- The payload the call stores. -/
def PutArgs.stored (x : PutArgs) : String × String × Int × List Nat :=
  CWebServer.stored x.path x.content_type x.content x.content_length

instance (x : PutArgs) : Decidable x.valid := by
  unfold PutArgs.valid; infer_instance

instance (o : Op) : Decidable o.valid := by
  cases o <;> unfold Op.valid <;> infer_instance

/-! ## Definitions used by the claims -/

/-- The cache after the calls `ops` on a fresh cache of capacity `max_size` (the
fresh cache itself if a call is undefined). -/
def cache_after (max_size : Int) (ops : List Op) : cache :=
  match run (cache_create max_size 0) ops with
  | some c => c
  | none => cache_create max_size 0

/-- A run with a duplicate key (`a` is put twice), an eviction, a miss on the key
whose index entry the eviction deleted, and a promotion of the tail. -/
def duplicate_run : List Op :=
  [Op.put "a" "t" [1] 1, Op.put "a" "t" [2] 1, Op.put "b" "t" [3] 1, Op.get "a",
    Op.put "c" "t" [] 0, Op.get "b"]

/-- The puts `xs` use the keys `a, b, a, b, ...` in turn, starting with `a`. -/
def Alternating : String → String → List PutArgs → Prop
  | _, _, [] => True
  | a, b, x :: rest => x.path = a ∧ Alternating b a rest

instance (a b : String) (xs : List PutArgs) : Decidable (Alternating a b xs) := by
  induction xs generalizing a b with
  | nil => exact isTrue trivial
  | cons x rest ih =>
    unfold Alternating
    have := ih b a
    infer_instance

/-- Every `cache_put` of the run is given a path the index does not hold at the
time of the call (the way `get_file` uses the cache: it puts only after
`cache_get` missed). -/
def fresh_puts : cache → List Op → Bool
  | _, [] => true
  | c, o :: rest =>
    (match o with
     | Op.put p _ _ _ => (hashtable_get c.index p).isNone
     | Op.get _ => true) &&
    (match step c o with
     | some c1 => fresh_puts c1 rest
     | none => true)

/-- Every listed entry has a non-negative `content_length`, and it is the size of
its `content`. -/
def LengthsOk (c : cache) (l : List Nat) : Prop :=
  ∀ a ∈ l, ∀ e, c.mem a = some e →
    0 ≤ e.content_length ∧ (e.content.length : Int) = e.content_length

/-! ## The functions of `server.c` -/

/-- `get_d20`: the number the `/d20` endpoint computes, `int r = rand() % 21;`, from
the value `rand()` returned (which is between 0 and `RAND_MAX`, so the remainder is
the one of natural numbers). The function then prints `r` in decimal and sends
that text as the response body. -/
def get_d20 (rand_value : Nat) : Nat :=
  rand_value % 21

/-- The bytes of a C string in memory: its characters followed by the terminating
NUL. -/
def c_string (s : String) : List Nat :=
  s.toList.map Char.toNat ++ [0]

/-- The comparison `buf[i] == ch`: `none` when index `i` is outside the buffer. -/
def byte_is (buf : List Nat) (i : Nat) (ch : Nat) : Option Bool :=
  match buf[i]? with
  | none => none
  | some c => some (decide (c = ch))

/-- C's `a && b` on comparisons that read memory: `b` is evaluated only when `a` is
true. -/
def and_then (a b : Option Bool) : Option Bool :=
  match a with
  | none => none
  | some false => some false
  | some true => b

/-- The `while` loop of `find_start_of_body` with `ptr` at index `ptr` of the buffer
`buf` (`'\n'` is 10, `'\r'` is 13). The result is `none` when a read leaves the
buffer, `some none` for `NULL` and `some (some p)` for the pointer to index `p`. Each
iteration moves `ptr` one byte on, so `fuel` counts the bytes left to visit. -/
def find_start_of_body_loop (buf : List Nat) : Nat → Nat → Option (Option Nat)
  | 0, _ => none
  | fuel + 1, ptr =>
    match buf[ptr]? with
    | none => none
    | some c =>
      if c = 0 then some none
      else
        match and_then (byte_is buf ptr 10) (byte_is buf (ptr + 1) 10),
              and_then (byte_is buf ptr 13)
                (and_then (byte_is buf (ptr + 1) 10)
                  (and_then (byte_is buf (ptr + 2) 13) (byte_is buf (ptr + 3) 10))) with
        | some lf2, some crlf2 =>
          if lf2 then some (some (ptr + 2))
          else if crlf2 then some (some (ptr + 4))
          else find_start_of_body_loop buf fuel (ptr + 1)
        | _, _ => none

/-- `find_start_of_body`: search the buffer `header` from its start; the loop visits
each byte of the buffer at most once. -/
def find_start_of_body (header : List Nat) : Option (Option Nat) :=
  find_start_of_body_loop header header.length 0

/-- The length of the blank-line pattern that starts at index `i` of `s`, following
the wording of the claims: 2 for `"\n\n"`, 4 for `"\r\n\r\n"`, `none` if neither
starts there. -/
def blank_line_at (s : List Nat) (i : Nat) : Option Nat :=
  if (s.drop i).take 2 = [10, 10] then some 2
  else if (s.drop i).take 4 = [13, 10, 13, 10] then some 4
  else none

/-! ## Lemmas on memory and segments -/

theorem store_same (m : Nat → Option cache_entry) (a : Nat) (e : cache_entry) :
    store m a e a = some e := by
  simp [store]

theorem store_other (m : Nat → Option cache_entry) {a q : Nat} (e : cache_entry)
    (h : q ≠ a) : store m a e q = m q := by
  simp [store, h]

theorem set_next_eq {m : Nat → Option cache_entry} {a : Nat} {e : cache_entry}
    (h : m a = some e) (v : Option Nat) :
    set_next m (some a) v = some (store m a { e with next := v }) := by
  simp [set_next, h]

theorem set_prev_eq {m : Nat → Option cache_entry} {a : Nat} {e : cache_entry}
    (h : m a = some e) (v : Option Nat) :
    set_prev m (some a) v = some (store m a { e with prev := v }) := by
  simp [set_prev, h]

theorem sameData_refl (m : Nat → Option cache_entry) : SameData m m :=
  fun _ => rfl

theorem sameData_trans {m1 m2 m3 : Nat → Option cache_entry}
    (h12 : SameData m1 m2) (h23 : SameData m2 m3) : SameData m1 m3 :=
  fun a => (h23 a).trans (h12 a)

theorem sameData_store {m : Nat → Option cache_entry} {a : Nat} {e e' : cache_entry}
    (h : m a = some e) (hp : payload e' = payload e) : SameData m (store m a e') := by
  intro q
  by_cases hq : q = a
  · subst hq; simp [store, h, hp]
  · simp [store, hq]

theorem sameData_set_next {m : Nat → Option cache_entry} {a : Nat} {e : cache_entry}
    (h : m a = some e) (v : Option Nat) :
    SameData m (store m a { e with next := v }) :=
  sameData_store h rfl

theorem sameData_set_prev {m : Nat → Option cache_entry} {a : Nat} {e : cache_entry}
    (h : m a = some e) (v : Option Nat) :
    SameData m (store m a { e with prev := v }) :=
  sameData_store h rfl

theorem sameData_live {m m' : Nat → Option cache_entry} (h : SameData m m') (a : Nat) :
    m' a = none ↔ m a = none := by
  have := h a
  cases h1 : m a <;> cases h2 : m' a <;> simp [h1, h2] at this ⊢

theorem lastOr_eq (l : List Nat) (prv : Option Nat) :
    lastOr l prv = match l.getLast? with
                   | some x => some x
                   | none => prv := by
  induction l generalizing prv with
  | nil => rfl
  | cons a rest ih =>
    rw [lastOr, ih, List.getLast?_cons]
    cases rest.getLast? <;> rfl

theorem lastOr_none (l : List Nat) : lastOr l none = l.getLast? := by
  rw [lastOr_eq]; cases l.getLast? <;> rfl

theorem lastOr_append_singleton (l : List Nat) (a : Nat) (prv : Option Nat) :
    lastOr (l ++ [a]) prv = some a := by
  rw [lastOr_eq, List.getLast?_append, List.getLast?_singleton]; rfl

theorem hdOr_none (l : List Nat) : hdOr l none = l.head? := by
  cases l <;> rfl

theorem hdOr_append (l1 l2 : List Nat) (nxt : Option Nat) :
    hdOr (l1 ++ l2) nxt = hdOr l1 (hdOr l2 nxt) := by
  cases l1 <;> rfl

theorem seg_cons {m : Nat → Option cache_entry} (a : Nat) (rest : List Nat)
    (prv nxt : Option Nat) :
    Seg m prv (a :: rest) nxt ↔
      ∃ e, m a = some e ∧ e.prev = prv ∧ e.next = hdOr rest nxt ∧
        Seg m (some a) rest nxt :=
  Iff.rfl

theorem seg_congr {m m' : Nat → Option cache_entry} {l : List Nat}
    (h : ∀ a ∈ l, m' a = m a) {prv nxt : Option Nat} (hs : Seg m prv l nxt) :
    Seg m' prv l nxt := by
  induction l generalizing prv with
  | nil => trivial
  | cons a rest ih =>
    obtain ⟨e, he, hp, hn, hr⟩ := hs
    refine ⟨e, ?_, hp, hn, ih (fun b hb => h b (List.mem_cons_of_mem _ hb)) hr⟩
    rw [h a (List.mem_cons_self _ _)]; exact he

theorem seg_append {m : Nat → Option cache_entry} (l1 l2 : List Nat)
    (prv nxt : Option Nat) :
    Seg m prv (l1 ++ l2) nxt ↔
      Seg m prv l1 (hdOr l2 nxt) ∧ Seg m (lastOr l1 prv) l2 nxt := by
  induction l1 generalizing prv with
  | nil => simp [Seg, lastOr]
  | cons a rest ih =>
    rw [List.cons_append, seg_cons, seg_cons, ih, lastOr, hdOr_append]
    constructor
    · rintro ⟨e, he, hp, hn, h1, h2⟩
      exact ⟨⟨e, he, hp, hn, h1⟩, h2⟩
    · rintro ⟨⟨e, he, hp, hn, h1⟩, h2⟩
      exact ⟨e, he, hp, hn, h1, h2⟩

theorem seg_live {m : Nat → Option cache_entry} {l : List Nat} {prv nxt : Option Nat}
    (hs : Seg m prv l nxt) {a : Nat} (ha : a ∈ l) : ∃ e, m a = some e := by
  induction l generalizing prv with
  | nil => cases ha
  | cons b rest ih =>
    obtain ⟨e, he, _, _, hr⟩ := hs
    rcases List.mem_cons.1 ha with rfl | h
    · exact ⟨e, he⟩
    · exact ih hr h

theorem seg_store_other {m : Nat → Option cache_entry} {l : List Nat}
    {prv nxt : Option Nat} (hs : Seg m prv l nxt) {a : Nat} (ha : a ∉ l)
    (e : cache_entry) : Seg (store m a e) prv l nxt :=
  seg_congr (fun b hb => store_other m e (by rintro rfl; exact ha hb)) hs

theorem seg_set_prev_head {m : Nat → Option cache_entry} {a : Nat} {rest : List Nat}
    {prv nxt : Option Nat} (hs : Seg m prv (a :: rest) nxt) (ha : a ∉ rest)
    {e : cache_entry} (he : m a = some e) (v : Option Nat) :
    Seg (store m a { e with prev := v }) v (a :: rest) nxt := by
  obtain ⟨e0, he0, _, hn, hr⟩ := hs
  have : e0 = e := Option.some.inj (he0.symm.trans he)
  subst this
  exact ⟨_, store_same _ _ _, rfl, hn, seg_store_other hr ha _⟩

theorem seg_set_next_last {m : Nat → Option cache_entry} {l : List Nat} {a : Nat}
    {prv nxt : Option Nat} (hs : Seg m prv (l ++ [a]) nxt) (ha : a ∉ l)
    {e : cache_entry} (he : m a = some e) (v : Option Nat) :
    Seg (store m a { e with next := v }) prv (l ++ [a]) v := by
  rw [seg_append] at hs ⊢
  obtain ⟨h1, e0, he0, hp, _, _⟩ := hs
  have : e0 = e := Option.some.inj (he0.symm.trans he)
  subst this
  exact ⟨seg_store_other h1 ha _, _, store_same _ _ _, hp, rfl, trivial⟩

theorem walk_of_seg {m : Nat → Option cache_entry} {l : List Nat} {prv : Option Nat}
    (hs : Seg m prv l none) {fuel : Nat} (hf : l.length ≤ fuel) :
    dllist_walk m fuel l.head? = l := by
  induction l generalizing prv fuel with
  | nil => cases fuel <;> rfl
  | cons a rest ih =>
    obtain ⟨e, he, _, hn, hr⟩ := hs
    cases fuel with
    | zero => simp at hf
    | succ n =>
      have hlen : rest.length ≤ n := by simpa using hf
      simp only [List.head?_cons, dllist_walk, he, hn, hdOr_none]
      rw [ih hr hlen]

/-! ## Specifications of the list operations -/

theorem frame_refl (c : cache) : Frame c c :=
  ⟨sameData_refl _, rfl, rfl, rfl⟩

theorem frame_trans {c1 c2 c3 : cache} (h12 : Frame c1 c2) (h23 : Frame c2 c3) :
    Frame c1 c3 :=
  ⟨sameData_trans h12.data h23.data, h23.index.trans h12.index,
    h23.brk.trans h12.brk, h23.max_size.trans h12.max_size⟩

theorem insert_head_spec {c : cache} {l : List Nat} (hl : Lst c l) {ce : Nat}
    {e : cache_entry} (he : c.mem ce = some e) (hce : ce ∉ l) :
    ∃ c', dllist_insert_head c ce = some c' ∧ Lst c' (ce :: l) ∧ Frame c c' := by
  cases l with
  | nil =>
    have hh : c.head = none := hl.head
    have h1 := set_next_eq he none
    have h2 := set_prev_eq (store_same c.mem ce { e with next := none }) none
    have hsz : c.cur_size = 0 := by simpa using hl.size
    simp only [dllist_insert_head, hh, h1, h2, Option.bind_eq_bind, Option.some_bind,
      Option.some.injEq, exists_eq_left']
    refine ⟨⟨by simp, ⟨_, store_same _ _ _, rfl, rfl, trivial⟩, rfl, rfl, ?_⟩,
      ⟨sameData_trans (sameData_set_next he none)
        (sameData_set_prev (store_same _ _ _) none), rfl, rfl, rfl⟩⟩
    simp [hsz]
  | cons h rest =>
    have hh : c.head = some h := hl.head
    have hne : ce ≠ h := fun hc => hce (hc ▸ List.mem_cons_self _ _)
    have hnd := List.nodup_cons.1 hl.nodup
    obtain ⟨eh, heh⟩ := seg_live hl.seg (List.mem_cons_self h rest)
    have h1 := set_prev_eq heh (some ce)
    have hce1 : store c.mem h { eh with prev := some ce } ce = some e := by
      rw [store_other _ _ hne]; exact he
    have h2 := set_next_eq hce1 (some h)
    have h3 := set_prev_eq (store_same (store c.mem h { eh with prev := some ce }) ce
      { e with next := some h }) none
    simp only [dllist_insert_head, hh, h1, h2, h3, Option.bind_eq_bind, Option.some_bind,
      Option.some.injEq, exists_eq_left']
    refine ⟨⟨List.nodup_cons.2 ⟨hce, hl.nodup⟩, ⟨_, store_same _ _ _, rfl, rfl, ?_⟩, rfl,
      ?_, ?_⟩, ⟨?_, rfl, rfl, rfl⟩⟩
    · exact seg_store_other (seg_store_other
        (seg_set_prev_head hl.seg hnd.1 heh (some ce)) hce _) hce _
    · rw [List.getLast?_cons_cons]; exact hl.tail
    · simp [hl.size]
    · exact sameData_trans (sameData_set_prev heh (some ce))
        (sameData_trans (sameData_set_next hce1 (some h))
          (sameData_set_prev (store_same _ _ _) none))

theorem remove_tail_spec {c : cache} {l : List Nat} {a t : Nat}
    (hl : Lst c (l ++ [a, t])) :
    ∃ c', dllist_remove_tail c = some (c', t) ∧ Lst c' (l ++ [a]) ∧ Frame c c' ∧
      c'.mem t = c.mem t := by
  have hl' : Lst c ((l ++ [a]) ++ [t]) := by simpa using hl
  have hnd := hl'.nodup
  rw [List.nodup_append] at hnd
  obtain ⟨hnd1, -, hdis⟩ := hnd
  have hta : t ∉ l ++ [a] := fun h => hdis h (List.mem_singleton_self t) 
  have hat : a ≠ t := fun h => hta (by simp [h])
  have hseg := hl'.seg
  rw [seg_append] at hseg
  obtain ⟨hs1, et, het, hpt, -, -⟩ := hseg
  rw [lastOr_append_singleton] at hpt
  obtain ⟨ea, hea⟩ := seg_live hs1 (List.mem_append_right l (List.mem_singleton_self a))
  have hal : a ∉ l := by
    have := hnd1
    rw [List.nodup_append] at this
    exact fun h => this.2.2 h (List.mem_singleton_self a)
  have htail : c.tail = some t := by
    rw [hl'.tail, List.getLast?_append, List.getLast?_singleton]; rfl
  have h1 := set_next_eq hea none
  simp only [dllist_remove_tail, htail, load, het, hpt, h1, Option.bind_eq_bind,
    Option.some_bind, Option.some.injEq, Prod.mk.injEq, and_true, exists_eq_left']
  refine ⟨⟨hnd1, seg_set_next_last hs1 hal hea none, ?_, ?_, ?_⟩,
    ⟨sameData_set_next hea none, rfl, rfl, rfl⟩,
    (store_other _ _ (Ne.symm hat)).trans het⟩
  · show c.head = (l ++ [a]).head?
    rw [hl.head]; cases l <;> rfl
  · show some a = (l ++ [a]).getLast?
    rw [List.getLast?_append, List.getLast?_singleton]; rfl
  · show c.cur_size - 1 = ((l ++ [a]).length : Int)
    rw [hl.size, List.length_append, List.length_append]
    simp only [List.length_cons, List.length_nil]
    push_cast; ring

theorem unlink_spec {c : cache} {l0 l2 : List Nat} {a ce : Nat}
    (hl : Lst c (l0 ++ [a] ++ ce :: l2)) :
    ∃ c1 e, dllist_unlink c ce = some c1 ∧ c1.mem ce = some e ∧
      Seg c1.mem none (l0 ++ [a] ++ l2) none ∧ c1.head = c.head ∧
      c1.tail = (l0 ++ [a] ++ l2).getLast? ∧ c1.cur_size = c.cur_size ∧ Frame c c1 := by
  have hnd := List.nodup_middle.1 hl.nodup
  obtain ⟨hce, hnd1⟩ := List.nodup_cons.1 hnd
  have hnd2 : (a :: (l0 ++ l2)).Nodup := by
    have : (l0 ++ a :: l2).Nodup := by simpa using hnd1
    exact List.nodup_middle.1 this
  obtain ⟨ha, -⟩ := List.nodup_cons.1 hnd2
  have hcea : ce ≠ a := fun h => hce (by simp [h])
  have hal0 : a ∉ l0 := fun h => ha (List.mem_append_left _ h)
  have hal2 : a ∉ l2 := fun h => ha (List.mem_append_right _ h)
  have hseg := hl.seg
  rw [seg_append, lastOr_append_singleton] at hseg
  obtain ⟨hs1, e, he, hpe, hne, hs2⟩ := hseg
  obtain ⟨ea, hea⟩ := seg_live hs1 (List.mem_append_right l0 (List.mem_singleton_self a))
  cases l2 with
  | nil =>
    have htail : c.tail = some ce := by
      rw [hl.tail, List.getLast?_append]; rfl
    have hres : dllist_unlink c ce
        = some { c with mem := store c.mem a { ea with next := none }, tail := some a } := by
      simp only [dllist_unlink, htail, if_true, load, he, hpe, set_next_eq hea none,
        Option.bind_eq_bind, Option.some_bind]
    refine ⟨_, e, hres, (store_other _ _ hcea).trans he, ?_, rfl, ?_, rfl,
      ⟨sameData_set_next hea none, rfl, rfl, rfl⟩⟩
    · rw [List.append_nil]
      exact seg_set_next_last hs1 hal0 hea none
    · show some a = (l0 ++ [a] ++ []).getLast?
      rw [List.append_nil, List.getLast?_append, List.getLast?_singleton]; rfl
  | cons b r =>
    have hne1 : e.next = some b := hne
    obtain ⟨hb, hrn⟩ := List.nodup_cons.1 (List.nodup_append.1 hnd1).2.1
    have hba : b ≠ a := fun h => hal2 (h ▸ List.mem_cons_self _ _)
    have hbl : b ∉ l0 ++ [a] := fun h =>
      (List.nodup_append.1 hnd1).2.2 h (List.mem_cons_self _ _)
    have hceb : ce ≠ b := fun h => hce (by simp [h])
    obtain ⟨eb, heb⟩ := seg_live hs2 (List.mem_cons_self b r)
    have htail : ¬ some ce = c.tail := by
      rw [hl.tail, List.getLast?_append, List.getLast?_cons_cons]
      intro h
      have hmem : ce ∈ b :: r := by
        cases hq : (b :: r).getLast? with
        | none => simp at hq
        | some q =>
          rw [hq] at h
          have : ce = q := by simpa using h
          rw [this]; exact List.mem_of_getLast?_eq_some hq
      exact hce (List.mem_append_right _ hmem)
    have hce1 : store c.mem a { ea with next := some b } ce = some e :=
      (store_other _ _ hcea).trans he
    have hb1 : store c.mem a { ea with next := some b } b = some eb :=
      (store_other _ _ hba).trans heb
    have hres : dllist_unlink c ce
        = some { c with mem := (store (store c.mem a { ea with next := some b }) b
                   { eb with prev := some a }) } := by
      simp only [dllist_unlink, htail, if_false, load, he, hpe, hne1,
        set_next_eq hea (some b), hce1, set_prev_eq hb1 (some a),
        Option.bind_eq_bind, Option.some_bind]
    refine ⟨_, e, hres, (store_other _ _ hceb).trans hce1, ?_, rfl, ?_, rfl,
      ⟨sameData_trans (sameData_set_next hea (some b)) (sameData_set_prev hb1 (some a)),
        rfl, rfl, rfl⟩⟩
    · rw [seg_append, lastOr_append_singleton]
      refine ⟨seg_store_other (seg_set_next_last hs1 hal0 hea (some b)) hbl _, ?_⟩
      exact seg_set_prev_head (seg_store_other hs2 hal2 _) hb hb1 (some a)
    · show c.tail = (l0 ++ [a] ++ b :: r).getLast?
      rw [hl.tail]
      simp only [List.getLast?_append, List.getLast?_cons_cons]

theorem relink_spec {m : Nat → Option cache_entry} {h ce : Nat} {r : List Nat}
    {e : cache_entry} (hs : Seg m none (h :: r) none) (hnd : (ce :: h :: r).Nodup)
    (he : m ce = some e) :
    ∃ m1 m2 m3, set_next m (some ce) (some h) = some m1 ∧
      set_prev m1 (some h) (some ce) = some m2 ∧ set_prev m2 (some ce) none = some m3 ∧
      Seg m3 none (ce :: h :: r) none ∧ SameData m m3 := by
  obtain ⟨hce, hnd1⟩ := List.nodup_cons.1 hnd
  obtain ⟨hh, -⟩ := List.nodup_cons.1 hnd1
  have hne : h ≠ ce := fun hc => hce (hc ▸ List.mem_cons_self _ _)
  obtain ⟨eh, heh⟩ := seg_live hs (List.mem_cons_self h r)
  have h1 := set_next_eq he (some h)
  have hh1 : store m ce { e with next := some h } h = some eh :=
    (store_other _ _ hne).trans heh
  have h2 := set_prev_eq hh1 (some ce)
  have hce2 : store (store m ce { e with next := some h }) h { eh with prev := some ce } ce
      = some { e with next := some h } :=
    (store_other _ _ (Ne.symm hne)).trans (store_same _ _ _)
  have h3 := set_prev_eq hce2 none
  refine ⟨_, _, _, h1, h2, h3, ⟨_, store_same _ _ _, rfl, rfl, ?_⟩, ?_⟩
  · exact seg_store_other (seg_set_prev_head (seg_store_other hs hce _) hh hh1 (some ce)) hce _
  · exact sameData_trans (sameData_set_next he (some h))
      (sameData_trans (sameData_set_prev hh1 (some ce)) (sameData_set_prev hce2 none))

theorem move_to_head_spec {c : cache} {l : List Nat} (hl : Lst c l) {ce : Nat}
    (hce : ce ∈ l) :
    ∃ c', dllist_move_to_head c ce = some c' ∧ Lst c' (ce :: l.erase ce) ∧ Frame c c' := by
  obtain ⟨l1, l2, rfl⟩ := List.append_of_mem hce
  have hnd := List.nodup_middle.1 hl.nodup
  obtain ⟨hcen, hnd1⟩ := List.nodup_cons.1 hnd
  have hce1 : ce ∉ l1 := fun h => hcen (List.mem_append_left _ h)
  have herase : (l1 ++ ce :: l2).erase ce = l1 ++ l2 := by
    rw [List.erase_append_right _ hce1, List.erase_cons_head]
  rw [herase]
  rcases List.eq_nil_or_concat' l1 with rfl | ⟨l0, a, rfl⟩
  · have hh : c.head = some ce := hl.head
    exact ⟨c, by simp [dllist_move_to_head, hh], by simpa using hl, frame_refl c⟩
  · obtain ⟨c1, e, hun, he, hs, hhd, htl, hsz, hfr⟩ := unlink_spec hl
    obtain ⟨h, r, hhr⟩ : ∃ h r, l0 ++ [a] ++ l2 = h :: r := by
      cases l0 <;> simp
    have hhead : c.head = some h := by
      rw [hl.head]
      have h1 : (l0 ++ [a] ++ ce :: l2).head? = (l0 ++ [a] ++ l2).head? := by
        cases l0 <;> rfl
      rw [h1, hhr]; rfl
    rw [hhr] at hs hcen hnd1 htl ⊢
    have hne : some ce ≠ c.head := by
      rw [hhead]
      intro hc
      exact hcen (by simp [Option.some.inj hc])
    have hhd1 : c1.head = some h := hhd.trans hhead
    obtain ⟨m1, m2, m3, h1, h2, h3, hs3, hd3⟩ :=
      relink_spec hs (List.nodup_cons.2 ⟨hcen, hnd1⟩) he
    have hres : dllist_move_to_head c ce = some { c1 with mem := m3, head := some ce } := by
      simp only [dllist_move_to_head, hne, if_true, ne_eq, not_false_eq_true, hun, hhd1,
        h1, h2, h3, Option.bind_eq_bind, Option.some_bind]
    refine ⟨_, hres, ⟨List.nodup_cons.2 ⟨hcen, hnd1⟩, hs3, rfl, ?_, ?_⟩,
      frame_trans hfr ⟨hd3, rfl, rfl, rfl⟩⟩
    · show c1.tail = (ce :: h :: r).getLast?
      rw [htl, List.getLast?_cons_cons]
    · show c1.cur_size = ((ce :: h :: r).length : Int)
      rw [hsz, hl.size, ← hhr]
      simp only [List.length_append, List.length_cons, List.length_nil]
      push_cast; ring

theorem free_entry_spec {c : cache} {l : List Nat} (hl : Lst c l) {t : Nat}
    {e : cache_entry} (ht : c.mem t = some e) (htl : t ∉ l) :
    free_entry c t = some { c with mem := release c.mem t } ∧
      Lst { c with mem := release c.mem t } l := by
  refine ⟨by simp [free_entry, ht], hl.nodup, ?_, hl.head, hl.tail, hl.size⟩
  refine seg_congr (fun b hb => ?_) hl.seg
  have : b ≠ t := by rintro rfl; exact htl hb
  simp [release, this]

theorem cache_list_eq {c : cache} {l : List Nat} (hl : Lst c l)
    (hb : ∀ a, c.brk ≤ a → c.mem a = none) : cache_list c = l := by
  have hlt : ∀ a ∈ l, a < c.brk := by
    intro a ha
    by_contra hge
    obtain ⟨e, he⟩ := seg_live hl.seg ha
    rw [hb a (Nat.le_of_not_lt hge)] at he
    cases he
  have hlen : l.length ≤ c.brk := by
    have hsub : l.toFinset ⊆ Finset.range c.brk := by
      intro a ha
      exact Finset.mem_range.2 (hlt a (List.mem_toFinset.1 ha))
    have := Finset.card_le_card hsub
    rwa [List.toFinset_card_of_nodup hl.nodup, Finset.card_range] at this
  unfold cache_list
  rw [hl.head]
  exact walk_of_seg hl.seg hlen

/-! ## The invariant is kept by `cache_put` and `cache_get` -/

theorem path_at_sameData {c c' : cache} (h : SameData c.mem c'.mem) (a : Nat) :
    path_at c' a = path_at c a := by
  have := h a
  unfold path_at
  cases h1 : c.mem a <;> cases h2 : c'.mem a <;> simp [h1, h2] at this ⊢
  exact congrArg Prod.fst this

theorem path_at_of_payload {c c' : cache} {a : Nat}
    (h : (c'.mem a).map payload = (c.mem a).map payload) :
    path_at c' a = path_at c a := by
  unfold path_at
  cases h1 : c.mem a <;> cases h2 : c'.mem a <;> simp [h1, h2] at h ⊢
  exact congrArg Prod.fst h

theorem Lst.transport {c c' : cache} {l : List Nat} (hl : Lst c l)
    (hm : c'.mem = c.mem) (hh : c'.head = c.head) (ht : c'.tail = c.tail)
    (hs : c'.cur_size = c.cur_size) : Lst c' l :=
  ⟨hl.nodup, hm ▸ hl.seg, hh.trans hl.head, ht.trans hl.tail, hs.trans hl.size⟩

theorem Inv.live {c : cache} {l : List Nat} (hi : Inv c l) {a : Nat} (ha : a ∈ l) :
    ∃ e, c.mem a = some e :=
  seg_live hi.lst.seg ha

theorem Inv.brk_not_mem {c : cache} {l : List Nat} (hi : Inv c l) : c.brk ∉ l := by
  intro h
  obtain ⟨e, he⟩ := hi.live h
  rw [hi.fresh c.brk (Nat.le_refl _)] at he
  cases he

theorem Inv.list_eq {c : cache} {l : List Nat} (hi : Inv c l) : cache_list c = l :=
  cache_list_eq hi.lst hi.fresh

theorem inv_create {max_size : Int} (hsize : Int) (h : 1 ≤ max_size) :
    Inv (cache_create max_size hsize) [] := by
  refine ⟨⟨List.nodup_nil, trivial, rfl, rfl, rfl⟩, fun _ _ => rfl, ?_, ?_, ?_, h⟩
  · intro k p hk
    simp [cache_create, hashtable_create] at hk
  · intro h hh
    simp [cache_create] at hh
  · show (0 : Int) ≤ max_size
    omega

theorem memcpy_valid {b : List Nat} {n : Int} (h0 : 0 ≤ n) (h1 : n ≤ (b.length : Int)) :
    memcpy b n = some (b.take n.toNat) := by
  simp [memcpy, h0, h1]

theorem put_prefix {c : cache} {l : List Nat} (hi : Inv c l) (path ct : String)
    {b : List Nat} {n : Int} (h0 : 0 ≤ n) (h1 : n ≤ (b.length : Int)) :
    ∃ c1 c2 e, alloc_entry c path ct b n = some (c1, c.brk) ∧
      dllist_insert_head c1 c.brk = some c2 ∧ c2.mem c.brk = some e ∧
      payload e = (path, ct, n, b.take n.toNat) ∧ Lst c2 (c.brk :: l) ∧
      c2.index = c.index ∧ c2.brk = c.brk + 1 ∧ c2.max_size = c.max_size ∧
      (∀ a, a ≠ c.brk → (c2.mem a).map payload = (c.mem a).map payload) := by
  have hnm := hi.brk_not_mem
  have hl1 : Lst { c with
      mem := store c.mem c.brk
        { path := path, content_type := ct, content_length := n,
          content := b.take n.toNat, prev := none, next := none }
      brk := c.brk + 1 } l :=
    ⟨hi.lst.nodup, seg_store_other hi.lst.seg hnm _, hi.lst.head, hi.lst.tail, hi.lst.size⟩
  obtain ⟨c2, hins, hl2, hfr⟩ := insert_head_spec hl1 (store_same _ _ _) hnm
  have hd := hfr.data c.brk
  have hd1 : (c2.mem c.brk).map payload = some (path, ct, n, b.take n.toNat) := by
    rw [hd]; simp [store, payload]
  obtain ⟨e, he⟩ : ∃ e, c2.mem c.brk = some e := by
    cases hc : c2.mem c.brk with
    | none => rw [hc] at hd1; cases hd1
    | some e => exact ⟨e, rfl⟩
  refine ⟨_, c2, e, by simp [alloc_entry, memcpy_valid h0 h1], hins, he, ?_, hl2,
    hfr.index, hfr.brk, hfr.max_size, ?_⟩
  · rw [he] at hd1; simpa using hd1
  · intro a ha
    rw [hfr.data a]
    simp [store, ha]

theorem put_spec {c : cache} {l : List Nat} (hi : Inv c l) (path ct : String)
    {b : List Nat} {n : Int} (h0 : 0 ≤ n) (h1 : n ≤ (b.length : Int)) :
    ∃ c', cache_put c path ct b n = some c' ∧ PutPost c c' l path ct b n := by
  obtain ⟨c1, c2, e, halloc, hins, hmem, hpay, hl2, hidx2, hbrk2, hmax2, hkept2⟩ :=
    put_prefix hi path ct h0 h1
  have hpath : e.path = path := congrArg Prod.fst hpay
  have hsz : c.cur_size = (l.length : Int) := hi.lst.size
  have hsz2 : c2.cur_size = (l.length : Int) + 1 := by
    rw [hl2.size]; simp
  have hcap := hi.cap
  have hpos := hi.pos
  have hnm := hi.brk_not_mem
  have hpbrk : path_at c2 c.brk = path := by simp [path_at, hmem, hpath]
  have hfresh2 : ∀ a, c.brk + 1 ≤ a → c2.mem a = none := by
    intro a ha
    have h := hkept2 a (by omega)
    rw [hi.fresh a (by omega)] at h
    cases hc : c2.mem a with
    | none => rfl
    | some x => rw [hc] at h; cases h
  by_cases hfull : c.cur_size < c.max_size
  · have hcond : ¬ (c2.cur_size > c2.max_size) := by
      rw [hsz2, hmax2]; omega
    have hres : cache_put c path ct b n
        = some { c2 with index := hashtable_put c2.index e.path c.brk } := by
      simp only [cache_put, halloc, hins, hmem, hcond, if_false]
    have hpl : put_list c l = c.brk :: l := by simp [put_list, hfull]
    refine ⟨_, hres, ?_, hbrk2, hmax2, ?_, ?_, ?_, fun h => absurd hfull h⟩
    · rw [hpl]
      refine ⟨hl2.transport rfl rfl rfl rfl, fun a ha => hfresh2 a (by
        have : c2.brk ≤ a := ha
        omega), ?_, ?_, ?_, ?_⟩
      · intro k p hk
        have hk' : (if k = e.path then some c.brk else c2.index.lookup k) = some p := hk
        by_cases hkp : k = e.path
        · rw [if_pos hkp] at hk'
          have : c.brk = p := Option.some.inj hk'
          subst this
          exact ⟨List.mem_cons_self _ _, by
            show path_at c2 c.brk = k
            rw [hpbrk, hkp, hpath]⟩
        · rw [if_neg hkp, hidx2] at hk'
          obtain ⟨hp, hpp⟩ := hi.idx k p hk'
          refine ⟨List.mem_cons_of_mem _ hp, ?_⟩
          have hne : p ≠ c.brk := by rintro rfl; exact hnm hp
          show path_at c2 p = k
          rw [path_at_of_payload (hkept2 p hne)]; exact hpp
      · intro h hh
        have hh' : c2.head = some h := hh
        rw [hl2.head] at hh'
        have : c.brk = h := by simpa using hh'
        subst this
        right
        show (if path_at c2 c.brk = e.path then some c.brk else _) = some c.brk
        rw [hpbrk, hpath, if_pos rfl]
      · show c2.cur_size ≤ c2.max_size
        omega
      · show 1 ≤ c2.max_size
        omega
    · show (c2.mem c.brk).map payload = _
      rw [hmem]; simp [hpay]
    · intro a _ ha
      exact hkept2 a ha
    · intro k
      show (if k = e.path then some c.brk else c2.index.lookup k) = put_index c l path k
      simp [put_index, hfull, hpath, hidx2]
  · have hlen : (l.length : Int) = c.max_size := by omega
    have hlne : l ≠ [] := by
      rintro rfl
      simp at hlen
      omega
    rcases List.eq_nil_or_concat' l with rfl | ⟨d, t, rfl⟩
    · exact absurd rfl hlne
    obtain ⟨X, a, hX⟩ : ∃ X a, c.brk :: d = X ++ [a] := by
      rcases List.eq_nil_or_concat' (c.brk :: d) with h | h
      · cases h
      · exact h
    have hlist : c.brk :: (d ++ [t]) = X ++ [a, t] := by
      rw [← List.cons_append, hX, List.append_assoc]; rfl
    have htl : t ∈ d ++ [t] := List.mem_append_right _ (List.mem_singleton_self t)
    have htb : t ≠ c.brk := by rintro rfl; exact hnm htl
    have hnd2 : (X ++ [a] ++ [t]).Nodup := by
      have := hl2.nodup
      rw [hlist] at this
      simpa using this
    have htX : t ∉ X ++ [a] := fun h =>
      (List.nodup_append.1 hnd2).2.2 h (List.mem_singleton_self t)
    have hl3 : Lst { c2 with index := hashtable_put c2.index e.path c.brk } (X ++ [a, t]) :=
      (hlist ▸ hl2).transport rfl rfl rfl rfl
    obtain ⟨c4, hrem, hl4, hfr4, hmt⟩ := remove_tail_spec hl3
    obtain ⟨et, het⟩ := seg_live hl2.seg (List.mem_cons_of_mem c.brk htl)
    have hmt4 : c4.mem t = some et := hmt.trans het
    have hl5 : Lst { c4 with index := hashtable_delete c4.index et.path } (X ++ [a]) :=
      hl4.transport rfl rfl rfl rfl
    obtain ⟨hfree, hl6⟩ := free_entry_spec hl5 hmt4 htX
    have hcond : c2.cur_size > c2.max_size := by
      rw [hsz2, hmax2]; omega
    have hres : cache_put c path ct b n
        = some { c4 with index := hashtable_delete c4.index et.path,
                         mem := release c4.mem t } := by
      simp only [cache_put, halloc, hins, hmem, hcond, if_true, hrem, hmt4]
      exact hfree
    have hpl : put_list c (d ++ [t]) = X ++ [a] := by
      simp [put_list, hfull, hX]
    have hpt : path_at c t = et.path := by
      rw [← path_at_of_payload (hkept2 t htb)]
      simp [path_at, het]
    have hpay6 : ∀ q, q ≠ t → (release c4.mem t q).map payload = (c2.mem q).map payload := by
      intro q hq
      simp only [release, if_neg hq]
      exact hfr4.data q
    have hi4 : c4.index = hashtable_put c2.index e.path c.brk := hfr4.index
    have hbX : c.brk ∈ X ++ [a] := by rw [← hX]; exact List.mem_cons_self _ _
    have hpb6 : ∀ q, q ≠ t →
        path_at { c4 with index := hashtable_delete c4.index et.path,
                          mem := release c4.mem t } q = path_at c2 q := by
      intro q hq
      exact path_at_of_payload (hpay6 q hq)
    have hlook : ∀ k, (hashtable_delete c4.index et.path).lookup k
        = if k = et.path then none else if k = path then some c.brk
          else c.index.lookup k := by
      intro k
      rw [hi4]
      simp [hashtable_delete, hashtable_put, hpath, hidx2]
    refine ⟨_, hres, ?_, ?_, ?_, ?_, ?_, ?_, ?_⟩
    · rw [hpl]
      refine ⟨hl6, ?_, ?_, ?_, ?_, ?_⟩
      · intro q hq
        have hq' : c4.brk ≤ q := hq
        rw [hfr4.brk] at hq'
        have hq2 : c2.brk ≤ q := hq'
        show release c4.mem t q = none
        by_cases hqt : q = t
        · simp [release, hqt]
        · have h := hpay6 q hqt
          rw [hfresh2 q (by omega)] at h
          cases hc : release c4.mem t q with
          | none => rfl
          | some x => rw [hc] at h; cases h
      · intro k p hk
        have hk' : (hashtable_delete c4.index et.path).lookup k = some p := hk
        rw [hlook] at hk'
        by_cases hk1 : k = et.path
        · rw [if_pos hk1] at hk'; cases hk'
        rw [if_neg hk1] at hk'
        by_cases hk2 : k = path
        · rw [if_pos hk2] at hk'
          have : c.brk = p := Option.some.inj hk'
          subst this
          refine ⟨hbX, ?_⟩
          rw [hpb6 _ (Ne.symm htb), hpbrk, hk2]
        · rw [if_neg hk2] at hk'
          obtain ⟨hp, hpp⟩ := hi.idx k p hk'
          have hpt' : p ≠ t := by
            rintro rfl
            exact hk1 (hpp.symm.trans hpt)
          have hpb : p ≠ c.brk := by rintro rfl; exact hnm hp
          have hpd : p ∈ d := by
            rcases List.mem_append.1 hp with h | h
            · exact h
            · exact absurd (List.mem_singleton.1 h) hpt'
          refine ⟨by rw [← hX]; exact List.mem_cons_of_mem _ hpd, ?_⟩
          rw [hpb6 _ hpt', path_at_of_payload (hkept2 p hpb)]; exact hpp
      · intro h hh
        have hh' : h = c.brk := by
          have h6 := hl6.head
          rw [← hX] at h6
          have : some h = some c.brk := hh.symm.trans h6
          exact Option.some.inj this
        subst hh'
        rw [hpb6 _ (Ne.symm htb), hpbrk]
        show (hashtable_delete c4.index et.path).lookup path = none ∨
          (hashtable_delete c4.index et.path).lookup path = some c.brk
        rw [hlook]
        by_cases hk1 : path = et.path
        · left; rw [if_pos hk1]
        · right; rw [if_neg hk1, if_pos rfl]
      · show c4.cur_size ≤ c4.max_size
        rw [hl4.size, hfr4.max_size]
        show ((X ++ [a]).length : Int) ≤ c2.max_size
        rw [hmax2, ← hX, ← hlen]
        simp
      · show 1 ≤ c4.max_size
        rw [hfr4.max_size]
        show 1 ≤ c2.max_size
        omega
    · show c4.brk = c.brk + 1
      rw [hfr4.brk]; exact hbrk2
    · show c4.max_size = c.max_size
      rw [hfr4.max_size]; exact hmax2
    · show (release c4.mem t c.brk).map payload = _
      rw [hpay6 _ (Ne.symm htb), hmem]; simp [hpay]
    · intro q hq hqb
      rw [hpl] at hq
      have hqt : q ≠ t := by rintro rfl; exact htX hq
      show (release c4.mem t q).map payload = _
      rw [hpay6 q hqt]; exact hkept2 q hqb
    · intro k
      show (hashtable_delete c4.index et.path).lookup k = _
      rw [hlook]
      simp [put_index, hfull, hpt]
    · intro _ t' ht'
      have : t' = t := by simpa using ht'.symm
      subst this
      show release c4.mem t' t' = none
      simp [release]

theorem get_miss {c : cache} {k : String} (h : c.index.lookup k = none) :
    cache_get c k = some (c, none) := by
  simp [cache_get, hashtable_get, h]

theorem get_hit_spec {c : cache} {l : List Nat} (hi : Inv c l) {k : String} {p : Nat}
    (h : c.index.lookup k = some p) :
    ∃ c', cache_get c k = some (c', some p) ∧ Inv c' (p :: l.erase p) ∧ Frame c c' := by
  obtain ⟨hp, hpk⟩ := hi.idx k p h
  obtain ⟨c', hmv, hl', hfr⟩ := move_to_head_spec hi.lst hp
  have hpath : ∀ a, path_at c' a = path_at c a := path_at_sameData hfr.data
  refine ⟨c', by simp [cache_get, hashtable_get, h, hmv], ⟨hl', ?_, ?_, ?_, ?_, ?_⟩, hfr⟩
  · intro a ha
    rw [hfr.brk] at ha
    exact (sameData_live hfr.data a).2 (hi.fresh a ha)
  · intro k' q hq
    rw [hfr.index] at hq
    obtain ⟨hq1, hq2⟩ := hi.idx k' q hq
    refine ⟨?_, (hpath q).trans hq2⟩
    by_cases hqp : q = p
    · rw [hqp]; exact List.mem_cons_self _ _
    · exact List.mem_cons_of_mem _ ((List.mem_erase_of_ne hqp).2 hq1)
  · intro h' hh
    rw [hl'.head] at hh
    have : p = h' := by simpa using hh
    subst this
    right
    rw [hpath, hpk, hfr.index]; exact h
  · rw [hl'.size, hfr.max_size]
    have := hi.cap
    rw [hi.lst.size] at this
    simpa [List.length_erase_of_mem hp, Nat.sub_add_cancel (List.length_pos_of_mem hp)]
      using this
  · rw [hfr.max_size]; exact hi.pos

theorem get_head {c : cache} {l : List Nat} (hi : Inv c l) {h : Nat}
    (hh : c.head = some h) : ∃ r, cache_get c (path_at c h) = some (c, r) := by
  rcases hi.hd h hh with hn | hs
  · exact ⟨none, get_miss hn⟩
  · exact ⟨some h, by simp [cache_get, hashtable_get, hs, dllist_move_to_head, hh]⟩

theorem put_valid_of_some {c c' : cache} {path ct : String} {b : List Nat} {n : Int}
    (h : cache_put c path ct b n = some c') : 0 ≤ n ∧ n ≤ (b.length : Int) := by
  by_contra hv
  have : memcpy b n = none := by simp [memcpy, hv]
  simp [cache_put, alloc_entry, this] at h

theorem step_valid_of_some {c c' : cache} {o : Op} (h : step c o = some c') : o.valid := by
  cases o with
  | put p t b n => exact put_valid_of_some h
  | get p => trivial

theorem inv_step {c : cache} {l : List Nat} (hi : Inv c l) (o : Op) (hv : o.valid) :
    ∃ c' l', step c o = some c' ∧ Inv c' l' ∧ c'.max_size = c.max_size := by
  cases o with
  | put p t b n =>
    obtain ⟨c', hput, hpost⟩ := put_spec hi p t hv.1 hv.2
    exact ⟨c', _, hput, hpost.inv, hpost.max_size⟩
  | get p =>
    cases hk : c.index.lookup p with
    | none => exact ⟨c, l, by simp [step, get_miss hk], hi, rfl⟩
    | some q =>
      obtain ⟨c', hget, hi', hfr⟩ := get_hit_spec hi hk
      exact ⟨c', _, by simp [step, hget], hi', hfr.max_size⟩

theorem inv_run {c : cache} {l : List Nat} (hi : Inv c l) (ops : List Op)
    (hv : ∀ o ∈ ops, o.valid) :
    ∃ c' l', run c ops = some c' ∧ Inv c' l' ∧ c'.max_size = c.max_size := by
  induction ops generalizing c l with
  | nil => exact ⟨c, l, rfl, hi, rfl⟩
  | cons o rest ih =>
    obtain ⟨c1, l1, hs, hi1, hm1⟩ := inv_step hi o (hv o (List.mem_cons_self _ _))
    obtain ⟨c2, l2, hr, hi2, hm2⟩ := ih hi1 (fun x hx => hv x (List.mem_cons_of_mem _ hx))
    exact ⟨c2, l2, by simp [run, hs, hr], hi2, hm2.trans hm1⟩

theorem valid_of_run {c c' : cache} {ops : List Op} (h : run c ops = some c') :
    ∀ o ∈ ops, o.valid := by
  induction ops generalizing c with
  | nil => intro o ho; cases ho
  | cons o rest ih =>
    intro x hx
    cases hs : step c o with
    | none => simp [run, hs] at h
    | some c1 =>
      simp only [run, hs] at h
      rcases List.mem_cons.1 hx with rfl | hx'
      · exact step_valid_of_some hs
      · exact ih h x hx'

theorem inv_of_run {c c' : cache} {l : List Nat} (hi : Inv c l) {ops : List Op}
    (h : run c ops = some c') : ∃ l', Inv c' l' ∧ c'.max_size = c.max_size := by
  obtain ⟨c2, l2, hr, hi2, hm2⟩ := inv_run hi ops (valid_of_run h)
  have : c2 = c' := Option.some.inj (hr.symm.trans h)
  subst this
  exact ⟨l2, hi2, hm2⟩

/-! ## Refinement to an LRU list of payloads -/

theorem path_at_eq (c : cache) (a : Nat) :
    path_at c a = ((payload_at c a).map Prod.fst).getD "" := by
  unfold path_at payload_at
  cases c.mem a <;> rfl

theorem path_at_of_payload_at {c : cache} {a : Nat} {v : String × String × Int × List Nat}
    (h : payload_at c a = some v) : path_at c a = v.1 := by
  rw [path_at_eq, h]; rfl

theorem Exact.keys_eq {c : cache} {l : List Nat}
    {vs : List (String × String × Int × List Nat)} (he : Exact c l vs) :
    l.map (path_at c) = vs.map Prod.fst := by
  have h1 : l.map (path_at c)
      = (l.map (payload_at c)).map (fun o => (o.map Prod.fst).getD "") := by
    rw [List.map_map]
    exact List.map_congr_left (fun a _ => path_at_eq c a)
  rw [h1, he.contents, List.map_map]
  exact List.map_congr_left (fun a _ => rfl)

theorem Exact.length_eq {c : cache} {l : List Nat}
    {vs : List (String × String × Int × List Nat)} (he : Exact c l vs) :
    l.length = vs.length := by
  have := congrArg List.length he.contents
  simpa using this

theorem Exact.cur_size {c : cache} {l : List Nat}
    {vs : List (String × String × Int × List Nat)} (he : Exact c l vs) :
    c.cur_size = (vs.length : Int) := by
  rw [he.inv.lst.size, he.length_eq]

theorem Exact.contents_eq {c : cache} {l : List Nat}
    {vs : List (String × String × Int × List Nat)} (he : Exact c l vs) :
    cache_contents c = vs.map some := by
  unfold cache_contents
  rw [he.inv.list_eq, he.contents]

theorem Exact.cache_keys_eq {c : cache} {l : List Nat}
    {vs : List (String × String × Int × List Nat)} (he : Exact c l vs) :
    cache_keys c = vs.map Prod.fst := by
  unfold cache_keys
  rw [he.inv.list_eq, he.keys_eq]

theorem Exact.lookup_none {c : cache} {l : List Nat}
    {vs : List (String × String × Int × List Nat)} (he : Exact c l vs) {k : String}
    (hk : k ∉ vs.map Prod.fst) : c.index.lookup k = none := by
  cases h : c.index.lookup k with
  | none => rfl
  | some p =>
    obtain ⟨hp, hpk⟩ := he.inv.idx k p h
    exfalso
    apply hk
    rw [← he.keys_eq, ← hpk]
    exact List.mem_map_of_mem _ hp

theorem Exact.mem_addr {c : cache} {l : List Nat}
    {vs : List (String × String × Int × List Nat)} (he : Exact c l vs)
    {v : String × String × Int × List Nat} (hv : v ∈ vs) :
    ∃ p ∈ l, payload_at c p = some v := by
  have : some v ∈ l.map (payload_at c) := by
    rw [he.contents]; exact List.mem_map_of_mem _ hv
  obtain ⟨p, hp, hpv⟩ := List.mem_map.1 this
  exact ⟨p, hp, hpv⟩

theorem exact_create {max_size : Int} (hsize : Int) (h : 1 ≤ max_size) :
    Exact (cache_create max_size hsize) [] [] :=
  ⟨inv_create hsize h, rfl, List.nodup_nil, fun _ hp => by cases hp⟩

theorem not_last_of_mem_dropLast {α : Type} {ks : List α} (h : ks.Nodup) {x : α}
    (hx : x ∈ ks.dropLast) : some x ≠ ks.getLast? := by
  rcases List.eq_nil_or_concat' ks with rfl | ⟨d, t, rfl⟩
  · simp at hx
  · rw [List.dropLast_concat] at hx
    rw [List.getLast?_append, List.getLast?_singleton]
    intro hxt
    have hxt' : x = t := by simpa using hxt
    subst hxt'
    exact (List.nodup_append.1 h).2.2 hx (List.mem_singleton_self x)

theorem exact_put {c : cache} {l : List Nat}
    {vs : List (String × String × Int × List Nat)} (he : Exact c l vs)
    (k t : String) {b : List Nat} {n : Int} (h0 : 0 ≤ n) (h1 : n ≤ (b.length : Int))
    (hk : k ∉ vs.map Prod.fst) :
    ∃ c', cache_put c k t b n = some c' ∧
      Exact c' (put_list c l) (lru_put c.max_size vs (stored k t b n)) ∧
      c'.max_size = c.max_size ∧
      (¬ c.cur_size < c.max_size → ∀ a, l.getLast? = some a → c'.mem a = none) := by
  obtain ⟨c', hput, hpost⟩ := put_spec he.inv k t h0 h1
  have hnm := he.inv.brk_not_mem
  have hkeys := he.keys_eq
  have hkl : ∀ a ∈ l, path_at c a ≠ k := by
    intro a ha hak
    apply hk
    rw [← hkeys, ← hak]
    exact List.mem_map_of_mem _ ha
  have hnd : (l.map (path_at c)).Nodup := by rw [hkeys]; exact he.keys
  have hpb : path_at c' c.brk = k := path_at_of_payload_at hpost.entry
  refine ⟨c', hput, ⟨hpost.inv, ?_, ?_, ?_⟩, hpost.max_size, hpost.freed⟩
  · -- contents
    have hsub : ∀ a, a ∈ (if c.cur_size < c.max_size then l else l.dropLast) → a ∈ l := by
      intro a ha
      split at ha
      · exact ha
      · exact List.mem_of_mem_dropLast ha
    have hcong : (if c.cur_size < c.max_size then l else l.dropLast).map (payload_at c')
        = (if c.cur_size < c.max_size then l else l.dropLast).map (payload_at c) := by
      apply List.map_congr_left
      intro a ha
      have hal := hsub a ha
      have hab : a ≠ c.brk := by rintro rfl; exact hnm hal
      exact hpost.kept a (List.mem_cons_of_mem _ ha) hab
    show (c.brk :: _).map (payload_at c') = (lru_put c.max_size vs (stored k t b n)).map some
    rw [List.map_cons, hcong]
    unfold lru_put
    rw [List.map_cons, ← he.cur_size]
    congr 1
    · exact hpost.entry
    · split
      · exact he.contents
      · rw [List.map_dropLast, List.map_dropLast, he.contents]
  · -- keys
    unfold lru_put
    rw [List.map_cons, List.nodup_cons]
    constructor
    · intro hmem
      apply hk
      split at hmem
      · exact hmem
      · exact ((List.dropLast_sublist vs).map Prod.fst).subset hmem
    · split
      · exact he.keys
      · exact he.keys.sublist ((List.dropLast_sublist vs).map Prod.fst)
  · -- correspondence
    intro p hp
    rw [hpost.index]
    rcases List.mem_cons.1 hp with rfl | hp'
    · rw [hpb]
      unfold put_index
      split
      · simp
      · have hlast : ¬ some k = l.getLast?.map (path_at c) := by
          intro h
          rw [← List.getLast?_map] at h
          exact hk (hkeys ▸ List.mem_of_getLast?_eq_some h.symm)
        rw [if_neg hlast, if_pos rfl]
    · have hpl : p ∈ l := by
        split at hp'
        · exact hp'
        · exact List.mem_of_mem_dropLast hp'
      have hpne : p ≠ c.brk := by rintro rfl; exact hnm hpl
      have hpath : path_at c' p = path_at c p :=
        path_at_of_payload (hpost.kept p hp hpne)
      rw [hpath]
      unfold put_index
      split
      · rw [if_neg (hkl p hpl)]; exact he.corr p hpl
      · rename_i hfull
        rw [if_neg hfull] at hp'
        have hlast : ¬ some (path_at c p) = l.getLast?.map (path_at c) := by
          rw [← List.getLast?_map]
          apply not_last_of_mem_dropLast hnd
          rw [← List.map_dropLast]
          exact List.mem_map_of_mem _ hp'
        rw [if_neg hlast, if_neg (hkl p hpl)]; exact he.corr p hpl

theorem map_erase_filter (f : Nat → Option (String × String × Int × List Nat))
    {l : List Nat} {vs : List (String × String × Int × List Nat)}
    (hc : l.map f = vs.map some) (hk : (vs.map Prod.fst).Nodup) {p : Nat} (hp : p ∈ l)
    {v : String × String × Int × List Nat} (hpv : f p = some v) :
    (l.erase p).map f = (vs.filter (fun w => decide (w.1 ≠ v.1))).map some := by
  induction l generalizing vs with
  | nil => cases hp
  | cons a r ih =>
    cases vs with
    | nil => simp at hc
    | cons w ws =>
      rw [List.map_cons, List.map_cons, List.cons.injEq] at hc
      obtain ⟨haw, hrw⟩ := hc
      rw [List.map_cons, List.nodup_cons] at hk
      by_cases hap : a = p
      · subst hap
        have hwv : w = v := Option.some.inj (haw.symm.trans hpv)
        subst hwv
        rw [List.erase_cons_head, hrw]
        have hfil : (w :: ws).filter (fun x => decide (x.1 ≠ w.1)) = ws := by
          rw [List.filter_cons_of_neg (by simp)]
          apply List.filter_eq_self.2
          intro x hx
          have : x.1 ≠ w.1 := fun h => hk.1 (h ▸ List.mem_map_of_mem Prod.fst hx)
          simpa using this
        rw [hfil]
      · have hpr : p ∈ r := by
          rcases List.mem_cons.1 hp with h | h
          · exact absurd h.symm hap
          · exact h
        have hvws : v ∈ ws := by
          have : some v ∈ r.map f := hpv ▸ List.mem_map_of_mem f hpr
          rw [hrw] at this
          obtain ⟨x, hx, hxv⟩ := List.mem_map.1 this
          exact (Option.some.inj hxv) ▸ hx
        have hwv : w.1 ≠ v.1 := fun h => hk.1 (h ▸ List.mem_map_of_mem Prod.fst hvws)
        rw [List.erase_cons_tail (by simpa using hap), List.map_cons, haw,
          List.filter_cons_of_pos (by simpa using hwv), List.map_cons, ih hrw hk.2 hpr]

theorem exact_get_miss {c : cache} {l : List Nat}
    {vs : List (String × String × Int × List Nat)} (he : Exact c l vs) {k : String}
    (hk : k ∉ vs.map Prod.fst) : cache_get c k = some (c, none) :=
  get_miss (he.lookup_none hk)

theorem exact_get_hit {c : cache} {l : List Nat}
    {vs : List (String × String × Int × List Nat)} (he : Exact c l vs)
    {v : String × String × Int × List Nat} (hv : v ∈ vs) :
    ∃ c' p, cache_get c v.1 = some (c', some p) ∧ payload_at c' p = some v ∧
      Exact c' (p :: l.erase p) (v :: vs.filter (fun w => decide (w.1 ≠ v.1))) ∧
      c'.max_size = c.max_size := by
  obtain ⟨p, hp, hpv⟩ := he.mem_addr hv
  have hpath : path_at c p = v.1 := path_at_of_payload_at hpv
  have hlook : c.index.lookup v.1 = some p := hpath ▸ he.corr p hp
  obtain ⟨c', hget, hi', hfr⟩ := get_hit_spec he.inv hlook
  have hpay : ∀ a, payload_at c' a = payload_at c a := hfr.data
  have hpa : ∀ a, path_at c' a = path_at c a := path_at_sameData hfr.data
  refine ⟨c', p, hget, (hpay p).trans hpv, ⟨hi', ?_, ?_, ?_⟩, hfr.max_size⟩
  · rw [List.map_congr_left (fun a _ => hpay a), List.map_cons, hpv, List.map_cons,
      map_erase_filter _ he.contents he.keys hp hpv]
  · rw [List.map_cons, List.nodup_cons]
    constructor
    · intro hmem
      obtain ⟨w, hw, hwv⟩ := List.mem_map.1 hmem
      have hw' := (List.mem_filter.1 hw).2
      exact (by simpa using hw' : w.1 ≠ v.1) hwv
    · exact he.keys.sublist ((List.filter_sublist vs).map Prod.fst)
  · intro q hq
    have hql : q ∈ l := by
      rcases List.mem_cons.1 hq with rfl | h
      · exact hp
      · exact List.mem_of_mem_erase h
    rw [hpa, hfr.index]
    exact he.corr q hql

/-! ## Lemmas on sequences of puts -/

theorem run_append (c : cache) (xs ys : List Op) :
    run c (xs ++ ys) = (run c xs).bind (fun c1 => run c1 ys) := by
  induction xs generalizing c with
  | nil => rfl
  | cons o rest ih =>
    cases hs : step c o with
    | none => simp [run, hs]
    | some c1 => simp [run, hs, ih]

theorem exact_put_args {c : cache} {l : List Nat}
    {vs : List (String × String × Int × List Nat)} (he : Exact c l vs) (x : PutArgs)
    (hv : x.valid) (hk : x.path ∉ vs.map Prod.fst) :
    ∃ c', run c [x.op] = some c' ∧
      Exact c' (put_list c l) (lru_put c.max_size vs x.stored) ∧
      c'.max_size = c.max_size := by
  obtain ⟨c', hput, he', hm, _⟩ := exact_put he x.path x.content_type hv.1 hv.2 hk
  exact ⟨c', by simp [run, step, PutArgs.op, hput], he', hm⟩

theorem exact_puts {c : cache} {l : List Nat}
    {vs : List (String × String × Int × List Nat)} (he : Exact c l vs)
    (xs : List PutArgs) (hv : ∀ x ∈ xs, x.valid)
    (hnd : (xs.map PutArgs.path ++ vs.map Prod.fst).Nodup)
    (hlen : ((vs.length + xs.length : Nat) : Int) ≤ c.max_size) :
    ∃ c' l', run c (xs.map PutArgs.op) = some c' ∧
      Exact c' l' ((xs.map PutArgs.stored).reverse ++ vs) ∧ c'.max_size = c.max_size := by
  induction xs generalizing c l vs with
  | nil => exact ⟨c, l, rfl, by simpa using he, rfl⟩
  | cons x rest ih =>
    rw [List.map_cons, List.cons_append, List.nodup_cons] at hnd
    have hk : x.path ∉ vs.map Prod.fst := fun h => hnd.1 (List.mem_append_right _ h)
    obtain ⟨c1, hr1, he1, hm1⟩ :=
      exact_put_args he x (hv x (List.mem_cons_self _ _)) hk
    have hlt : (vs.length : Int) < c.max_size := by
      simp only [List.length_cons] at hlen
      push_cast at hlen
      omega
    have hl1 : lru_put c.max_size vs x.stored = x.stored :: vs := by
      simp [lru_put, hlt]
    rw [hl1] at he1
    have hnd1 : (rest.map PutArgs.path ++ (x.stored :: vs).map Prod.fst).Nodup := by
      rw [List.map_cons]
      apply List.nodup_middle.2
      have hx : x.stored.1 = x.path := rfl
      rw [hx]
      exact List.nodup_cons.2 ⟨hnd.1, hnd.2⟩
    have hlen1 : (((x.stored :: vs).length + rest.length : Nat) : Int) ≤ c1.max_size := by
      rw [hm1]
      simp only [List.length_cons] at hlen ⊢
      push_cast at hlen ⊢
      omega
    obtain ⟨c2, l2, hr2, he2, hm2⟩ :=
      ih he1 (fun y hy => hv y (List.mem_cons_of_mem _ hy)) hnd1 hlen1
    refine ⟨c2, l2, ?_, ?_, hm2.trans hm1⟩
    · have : (x :: rest).map PutArgs.op = [x.op] ++ rest.map PutArgs.op := rfl
      rw [this, run_append, hr1]
      exact hr2
    · simpa using he2

theorem exact_get_key {c : cache} {l : List Nat}
    {vs : List (String × String × Int × List Nat)} (he : Exact c l vs)
    {v : String × String × Int × List Nat} (hv : v ∈ vs) :
    ∃ c' p, cache_get c v.1 = some (c', some p) ∧ payload_at c' p = some v ∧
      cache_keys c' = v.1 :: (cache_keys c).filter (fun k => decide (k ≠ v.1)) ∧
      c'.cur_size = c.cur_size := by
  obtain ⟨c', p, hget, hpay, he', _⟩ := exact_get_hit he hv
  refine ⟨c', p, hget, hpay, ?_, ?_⟩
  · rw [he'.cache_keys_eq, he.cache_keys_eq, List.map_cons, List.filter_map]
    rfl
  · rw [he'.inv.lst.size, he.inv.lst.size]
    have hp : p ∈ l := by
      by_contra hp
      have h1 := he'.inv.lst.nodup
      have hcap := he'.length_eq
      have h2 := he.length_eq
      rw [List.erase_of_not_mem hp] at hcap
      simp only [List.length_cons] at hcap
      have h3 : (vs.filter (fun w => decide (w.1 ≠ v.1))).length < vs.length := by
        apply List.length_filter_lt_length_iff_exists.2
        exact ⟨v, hv, by simp⟩
      omega
    simp [List.length_erase_of_mem hp, Nat.sub_add_cancel (List.length_pos_of_mem hp)]

theorem exact_gets {c : cache} {l : List Nat}
    {vs : List (String × String × Int × List Nat)} (he : Exact c l vs) (qs : List String) :
    ∃ c' l' vs', run c (qs.map Op.get) = some c' ∧ Exact c' l' vs' ∧
      ∀ v, v ∈ vs' ↔ v ∈ vs := by
  induction qs generalizing c l vs with
  | nil => exact ⟨c, l, vs, rfl, he, fun _ => Iff.rfl⟩
  | cons k rest ih =>
    have hstep : ∃ c1 l1 vs1, step c (Op.get k) = some c1 ∧ Exact c1 l1 vs1 ∧
        ∀ v, v ∈ vs1 ↔ v ∈ vs := by
      by_cases hk : k ∈ vs.map Prod.fst
      · obtain ⟨v, hv, hvk⟩ := List.mem_map.1 hk
        obtain ⟨c1, p, hget, _, he1, _⟩ := exact_get_hit he hv
        rw [hvk] at hget
        refine ⟨c1, _, _, by simp [step, hget], he1, ?_⟩
        intro w
        rw [List.mem_cons, List.mem_filter]
        constructor
        · rintro (h | h)
          · rw [h]; exact hv
          · exact h.1
        · intro hw
          by_cases hwv : w.1 = v.1
          · exact Or.inl (List.inj_on_of_nodup_map he.keys hw hv hwv)
          · exact Or.inr ⟨hw, by simpa using hwv⟩
      · exact ⟨c, l, vs, by simp [step, exact_get_miss he hk], he, fun _ => Iff.rfl⟩
    obtain ⟨c1, l1, vs1, hs, he1, hm1⟩ := hstep
    obtain ⟨c2, l2, vs2, hr, he2, hm2⟩ := ih he1
    refine ⟨c2, l2, vs2, ?_, he2, fun v => (hm2 v).trans (hm1 v)⟩
    simp only [List.map_cons, run, hs]
    exact hr

theorem stored_keys (xs : List PutArgs) :
    (xs.map PutArgs.stored).map Prod.fst = xs.map PutArgs.path := by
  rw [List.map_map]
  exact List.map_congr_left (fun _ _ => rfl)

theorem filter_key_concat {vs : List (String × String × Int × List Nat)}
    {v : String × String × Int × List Nat} (h : ((vs ++ [v]).map Prod.fst).Nodup) :
    (vs ++ [v]).filter (fun w => decide (w.1 ≠ v.1)) = vs := by
  rw [List.map_append, List.nodup_append] at h
  rw [List.filter_append, List.filter_cons_of_neg (by simp), List.filter_nil,
    List.append_nil]
  apply List.filter_eq_self.2
  intro w hw
  have : w.1 ≠ v.1 := fun hwv =>
    h.2.2 (List.mem_map_of_mem Prod.fst hw) (by simp [hwv])
  simpa using this

theorem cache_keys_create (max_size hashsize : Int) :
    cache_keys (cache_create max_size hashsize) = [] :=
  rfl

/-! ## Claims -/

/-- C1 (capacity bound). For a cache made by `cache_create` with `max_size ≥ 1` and
any sequence of `cache_put`/`cache_get` calls (any keys, duplicates included):
whenever the sequence returns, `cur_size ≤ max_size` (and `max_size` is the one
given at creation); and the sequence does return whenever every put is handed a
buffer of `content_length` bytes. Taking the sequence to be any prefix gives the
bound after each call. -/
theorem capacity_bound (max_size hashsize : Int) (hmax : 1 ≤ max_size) (ops : List Op) :
    (∀ c, run (cache_create max_size hashsize) ops = some c →
        c.cur_size ≤ c.max_size ∧ c.max_size = max_size) ∧
      ((∀ o ∈ ops, o.valid) → ∃ c, run (cache_create max_size hashsize) ops = some c) := by
  constructor
  · intro c hc
    obtain ⟨l, hi, hm⟩ := inv_of_run (inv_create hashsize hmax) hc
    exact ⟨hi.cap, hm⟩
  · intro hv
    obtain ⟨c, _, hr, _, _⟩ := inv_run (inv_create hashsize hmax) ops hv
    exact ⟨c, hr⟩

/-- Witness for `capacity_bound`: a cache of capacity 2 and a run with a duplicate
key, an eviction and a hit. -/
theorem capacity_bound_witness :
    (1 : Int) ≤ 2 ∧
      ((∀ c, run (cache_create 2 0)
            [Op.put "/a" "text/html" [1, 2] 2, Op.put "/a" "text/html" [3] 1,
             Op.put "/b" "text/plain" [] 0, Op.get "/a"] = some c →
          c.cur_size ≤ c.max_size ∧ c.max_size = 2) ∧
        ((∀ o ∈ [Op.put "/a" "text/html" [1, 2] 2, Op.put "/a" "text/html" [3] 1,
                 Op.put "/b" "text/plain" [] 0, Op.get "/a"], o.valid) →
          ∃ c, run (cache_create 2 0)
            [Op.put "/a" "text/html" [1, 2] 2, Op.put "/a" "text/html" [3] 1,
             Op.put "/b" "text/plain" [] 0, Op.get "/a"] = some c)) :=
  ⟨by decide, capacity_bound 2 0 (by decide) _⟩

/-- C5 (recency ordering). Putting `n ≤ max_size` entries with pairwise distinct keys
`k1..kn` into a fresh cache returns, and the list from head to tail is `kn,...,k1`;
a following `cache_get(ki)`, for any of the keys, hits the entry put for `ki` and
leaves the list `ki` followed by the other keys in their previous relative order. -/
theorem recency_ordering (max_size hashsize : Int) (xs : List PutArgs)
    (hlen : (xs.length : Int) ≤ max_size) (hnd : (xs.map PutArgs.path).Nodup)
    (hv : ∀ x ∈ xs, x.valid) :
    ∃ c, run (cache_create max_size hashsize) (xs.map PutArgs.op) = some c ∧
      cache_keys c = (xs.map PutArgs.path).reverse ∧
      ∀ x ∈ xs, ∃ c' p, cache_get c x.path = some (c', some p) ∧
        payload_at c' p = some x.stored ∧
        cache_keys c' = x.path :: (cache_keys c).filter (fun k => decide (k ≠ x.path)) := by
  cases xs with
  | nil => exact ⟨_, rfl, rfl, fun x hx => by cases hx⟩
  | cons x0 rest =>
    have hmax : 1 ≤ max_size := by
      simp only [List.length_cons] at hlen
      push_cast at hlen
      omega
    obtain ⟨c, l, hr, he, _⟩ := exact_puts (exact_create hashsize hmax) (x0 :: rest) hv
      (by simpa using hnd) (by simpa using hlen)
    rw [List.append_nil] at he
    refine ⟨c, hr, ?_, ?_⟩
    · rw [he.cache_keys_eq, List.map_reverse, stored_keys]
    · intro x hx
      have hmem : x.stored ∈ ((x0 :: rest).map PutArgs.stored).reverse :=
        List.mem_reverse.2 (List.mem_map_of_mem _ hx)
      obtain ⟨c', p, hget, hpay, hkeys, _⟩ := exact_get_key he hmem
      exact ⟨c', p, hget, hpay, hkeys⟩

/-- Witness for `recency_ordering`: the spec's instance, three keys in a cache of
capacity 3. -/
theorem recency_ordering_witness :
    ∃ c, run (cache_create 3 0)
        ([⟨"k1", "text/plain", [1], 1⟩, ⟨"k2", "text/plain", [2], 1⟩,
          ⟨"k3", "text/plain", [3], 1⟩].map PutArgs.op) = some c ∧
      cache_keys c
        = (([⟨"k1", "text/plain", [1], 1⟩, ⟨"k2", "text/plain", [2], 1⟩,
            ⟨"k3", "text/plain", [3], 1⟩] : List PutArgs).map PutArgs.path).reverse ∧
      ∀ x ∈ ([⟨"k1", "text/plain", [1], 1⟩, ⟨"k2", "text/plain", [2], 1⟩,
          ⟨"k3", "text/plain", [3], 1⟩] : List PutArgs),
        ∃ c' p, cache_get c x.path = some (c', some p) ∧
          payload_at c' p = some x.stored ∧
          cache_keys c' = x.path :: (cache_keys c).filter (fun k => decide (k ≠ x.path)) :=
  recency_ordering 3 0 _ (by decide) (by decide) (by decide)

/-- The spec's instance of recency ordering, evaluated: after `put k1, k2, k3` the
keys are `k3, k2, k1`, and after `get k1` they are `k1, k3, k2`. -/
theorem recency_ordering_instance :
    (run (cache_create 3 0)
        [Op.put "k1" "t" [1] 1, Op.put "k2" "t" [2] 1, Op.put "k3" "t" [3] 1]).map cache_keys
      = some ["k3", "k2", "k1"] ∧
    (run (cache_create 3 0)
        [Op.put "k1" "t" [1] 1, Op.put "k2" "t" [2] 1, Op.put "k3" "t" [3] 1,
         Op.get "k1"]).map cache_keys
      = some ["k1", "k3", "k2"] := by
  decide

/-- C2 (eviction correctness). For a capacity `n ≥ 1` and `n + 1` puts with pairwise
distinct keys `k1..k(n+1)` into a fresh cache: the calls return and the list is then
`k(n+1),...,k2` from head to tail; and then, directly or after any further
`cache_get` calls `qs`, `cache_get(k1)` returns `NULL` and changes nothing, and
`cache_get(ki)` for each later key returns the entry put for `ki`. -/
theorem eviction_correctness (n : Nat) (hashsize : Int) (hn : 1 ≤ n) (xs : List PutArgs)
    (hlen : xs.length = n + 1) (hnd : (xs.map PutArgs.path).Nodup)
    (hv : ∀ x ∈ xs, x.valid) :
    ∃ c, run (cache_create (n : Int) hashsize) (xs.map PutArgs.op) = some c ∧
      cache_keys c = (xs.map PutArgs.path).tail.reverse ∧
      ∀ qs : List String, ∃ c', run c (qs.map Op.get) = some c' ∧
        (∀ x ∈ xs.head?, cache_get c' x.path = some (c', none)) ∧
        (∀ x ∈ xs.tail, ∃ c'' p, cache_get c' x.path = some (c'', some p) ∧
          payload_at c'' p = some x.stored) := by
  cases xs with
  | nil => simp at hlen
  | cons x1 rest =>
    have hrl : rest.length = n := by simpa using hlen
    rcases List.eq_nil_or_concat' rest with rfl | ⟨mid, xl, rfl⟩
    · simp at hrl; omega
    have hmid : mid.length + 1 = n := by simpa using hrl
    have hmax : (1 : Int) ≤ (n : Int) := by exact_mod_cast hn
    have hkeys : (x1 :: (mid ++ [xl])).map PutArgs.path
        = (x1 :: mid).map PutArgs.path ++ [xl.path] := by simp
    rw [hkeys] at hnd
    have hnd' := List.nodup_append.1 hnd
    obtain ⟨c1, l1, hr1, he1, hm1⟩ := exact_puts (exact_create hashsize hmax) (x1 :: mid)
      (fun x hx => hv x (by
        rcases List.mem_cons.1 hx with h | h
        · exact h ▸ List.mem_cons_self _ _
        · exact List.mem_cons_of_mem _ (List.mem_append_left _ h)))
      (by simpa using hnd'.1)
      (by
        show (((([] : List (String × String × Int × List Nat)).length
          + (x1 :: mid).length : Nat)) : Int) ≤ (n : Int)
        simp only [List.length_nil, List.length_cons, Nat.zero_add]
        exact_mod_cast (Nat.le_of_eq hmid))
    rw [List.append_nil] at he1
    have hm1' : c1.max_size = (n : Int) := hm1
    have hxl : xl.path ∉ (((x1 :: mid).map PutArgs.stored).reverse).map Prod.fst := by
      rw [List.map_reverse, stored_keys, List.mem_reverse]
      exact fun h => hnd'.2.2 h (List.mem_singleton_self _)
    obtain ⟨c2, hr2, he2, _⟩ := exact_put_args he1 xl
      (hv xl (List.mem_cons_of_mem _ (List.mem_append_right _ (List.mem_singleton_self _))))
      hxl
    have hvs : lru_put c1.max_size ((x1 :: mid).map PutArgs.stored).reverse xl.stored
        = xl.stored :: (mid.map PutArgs.stored).reverse := by
      have hnl : ¬ ((((x1 :: mid).map PutArgs.stored).reverse.length : Int) < c1.max_size) := by
        rw [hm1']
        simp only [List.length_reverse, List.length_map, List.length_cons]
        have : ((mid.length + 1 : Nat) : Int) = (n : Int) := by exact_mod_cast hmid
        omega
      unfold lru_put
      rw [if_neg hnl, List.map_cons, List.reverse_cons, List.dropLast_concat]
    rw [hvs] at he2
    have hk2 : (xl.stored :: (mid.map PutArgs.stored).reverse).map Prod.fst
        = xl.path :: (mid.map PutArgs.path).reverse := by
      rw [List.map_cons, List.map_reverse, stored_keys]
      rfl
    refine ⟨c2, ?_, ?_, ?_⟩
    · have : (x1 :: (mid ++ [xl])).map PutArgs.op
          = (x1 :: mid).map PutArgs.op ++ [xl.op] := by simp
      rw [this, run_append, hr1]
      exact hr2
    · rw [he2.cache_keys_eq, hkeys, hk2]
      simp
    intro qs
    obtain ⟨c3, l3, vs3, hr3, he3, hm3⟩ := exact_gets he2 qs
    have hkeys3 : ∀ k, k ∈ vs3.map Prod.fst ↔ k ∈ xl.path :: (mid.map PutArgs.path).reverse := by
      intro k
      rw [← hk2]
      simp only [List.mem_map]
      constructor
      · rintro ⟨v, hv3, hvk⟩
        exact ⟨v, (hm3 v).1 hv3, hvk⟩
      · rintro ⟨v, hv2, hvk⟩
        exact ⟨v, (hm3 v).2 hv2, hvk⟩
    refine ⟨c3, hr3, ?_, ?_⟩
    · intro x hx
      have hx1 : x = x1 := by simpa using hx.symm
      subst hx1
      apply exact_get_miss he3
      rw [hkeys3]
      intro hmem
      have hx : x.path ∉ mid.map PutArgs.path ++ [xl.path] := by
        have := hnd
        rw [List.map_cons, List.cons_append, List.nodup_cons] at this
        exact this.1
      apply hx
      rcases List.mem_cons.1 hmem with h | h
      · exact List.mem_append_right _ (by rw [h]; exact List.mem_singleton_self _)
      · exact List.mem_append_left _ (List.mem_reverse.1 h)
    · intro x hx
      have hx' : x ∈ mid ++ [xl] := hx
      have hmem : x.stored ∈ xl.stored :: (mid.map PutArgs.stored).reverse := by
        rcases List.mem_append.1 hx' with h | h
        · exact List.mem_cons_of_mem _ (List.mem_reverse.2 (List.mem_map_of_mem _ h))
        · rw [List.mem_singleton.1 h]; exact List.mem_cons_self _ _
      obtain ⟨c', p, hget, hpay, _, _⟩ := exact_get_hit he3 ((hm3 _).2 hmem)
      exact ⟨c', p, hget, hpay⟩

/-- Witness for `eviction_correctness`: the spec's instance, capacity 2 and the
puts `a, b, c`. -/
theorem eviction_correctness_witness :
    ∃ c, run (cache_create ((2 : Nat) : Int) 0)
        ([⟨"a", "text/plain", [1], 1⟩, ⟨"b", "text/plain", [2], 1⟩,
          ⟨"c", "text/plain", [3], 1⟩].map PutArgs.op) = some c ∧
      cache_keys c
        = (([⟨"a", "text/plain", [1], 1⟩, ⟨"b", "text/plain", [2], 1⟩,
            ⟨"c", "text/plain", [3], 1⟩] : List PutArgs).map PutArgs.path).tail.reverse ∧
      ∀ qs : List String, ∃ c', run c (qs.map Op.get) = some c' ∧
        (∀ x ∈ ([⟨"a", "text/plain", [1], 1⟩, ⟨"b", "text/plain", [2], 1⟩,
            ⟨"c", "text/plain", [3], 1⟩] : List PutArgs).head?,
          cache_get c' x.path = some (c', none)) ∧
        (∀ x ∈ ([⟨"a", "text/plain", [1], 1⟩, ⟨"b", "text/plain", [2], 1⟩,
            ⟨"c", "text/plain", [3], 1⟩] : List PutArgs).tail,
          ∃ c'' p, cache_get c' x.path = some (c'', some p) ∧
            payload_at c'' p = some x.stored) :=
  eviction_correctness 2 0 (by decide) _ (by decide) (by decide) (by decide)

/-- The spec's instance of eviction correctness, evaluated: capacity 2, after
`put a, b, c` the keys are `c, b`; `get a` misses, `get b` and `get c` hit (at
addresses 1 and 2); and after the three gets in a row the keys are `c, b` again. -/
theorem eviction_correctness_instance :
    (run (cache_create 2 0)
        [Op.put "a" "t" [1] 1, Op.put "b" "t" [2] 1, Op.put "c" "t" [3] 1]).map cache_keys
      = some ["c", "b"] ∧
    (run (cache_create 2 0)
        [Op.put "a" "t" [1] 1, Op.put "b" "t" [2] 1, Op.put "c" "t" [3] 1,
         Op.get "a", Op.get "b", Op.get "c"]).map cache_keys
      = some ["c", "b"] ∧
    ((run (cache_create 2 0)
        [Op.put "a" "t" [1] 1, Op.put "b" "t" [2] 1, Op.put "c" "t" [3] 1]).bind
        (fun c => (cache_get c "a").map Prod.snd)) = some none ∧
    ((run (cache_create 2 0)
        [Op.put "a" "t" [1] 1, Op.put "b" "t" [2] 1, Op.put "c" "t" [3] 1]).bind
        (fun c => (cache_get c "b").map Prod.snd)) = some (some 1) ∧
    ((run (cache_create 2 0)
        [Op.put "a" "t" [1] 1, Op.put "b" "t" [2] 1, Op.put "c" "t" [3] 1]).bind
        (fun c => (cache_get c "c").map Prod.snd)) = some (some 2) := by
  decide

/-- C3 (promotion on hit decides the victim). For a capacity `n ≥ 2`: after the puts
of pairwise distinct keys `k1, k2, k3..kn` into a fresh cache, `cache_get(k1)` and
the put of a fresh key `c`, all calls have returned, the list is `c, k1, kn, ..., k3`
from head to tail, `cache_get(k2)` returns `NULL`, and `cache_get(k1)` and
`cache_get(c)` return the entries put for them. -/
theorem promotion_on_hit (hashsize : Int) (x1 x2 : PutArgs) (rest : List PutArgs)
    (y : PutArgs) (hnd : ((x1 :: x2 :: rest).map PutArgs.path ++ [y.path]).Nodup)
    (hv : ∀ x ∈ y :: x1 :: x2 :: rest, x.valid) :
    ∃ c, run (cache_create ((rest.length + 2 : Nat) : Int) hashsize)
        ((x1 :: x2 :: rest).map PutArgs.op ++ [Op.get x1.path, y.op]) = some c ∧
      cache_keys c = y.path :: x1.path :: (rest.map PutArgs.path).reverse ∧
      cache_get c x2.path = some (c, none) ∧
      (∃ c' p, cache_get c x1.path = some (c', some p) ∧
        payload_at c' p = some x1.stored) ∧
      (∃ c' p, cache_get c y.path = some (c', some p) ∧
        payload_at c' p = some y.stored) := by
  have hnd' := List.nodup_append.1 hnd
  have hmax : (1 : Int) ≤ ((rest.length + 2 : Nat) : Int) := by
    push_cast; omega
  obtain ⟨c1, l1, hr1, he1, hm1⟩ := exact_puts (exact_create hashsize hmax)
    (x1 :: x2 :: rest) (fun x hx => hv x (List.mem_cons_of_mem _ hx))
    (by simpa using hnd'.1)
    (by
      show (((([] : List (String × String × Int × List Nat)).length
        + (x1 :: x2 :: rest).length : Nat)) : Int) ≤ ((rest.length + 2 : Nat) : Int)
      simp only [List.length_nil, List.length_cons, Nat.zero_add]
      exact le_refl _)
  rw [List.append_nil] at he1
  have hm1' : c1.max_size = ((rest.length + 2 : Nat) : Int) := hm1
  have hvs1 : ((x1 :: x2 :: rest).map PutArgs.stored).reverse
      = ((rest.map PutArgs.stored).reverse ++ [x2.stored]) ++ [x1.stored] := by
    simp
  rw [hvs1] at he1
  obtain ⟨c2, p2, hget, _, he2, hm2⟩ := exact_get_hit he1
    (List.mem_append_right _ (List.mem_singleton_self x1.stored))
  rw [filter_key_concat he1.keys] at he2
  have hget' : cache_get c1 x1.path = some (c2, some p2) := hget
  have hyk : y.path ∉ (x1.stored :: ((rest.map PutArgs.stored).reverse
      ++ [x2.stored])).map Prod.fst := by
    intro hmem
    apply hnd'.2.2 _ (List.mem_singleton_self y.path)
    have h1 : (x1.stored :: ((rest.map PutArgs.stored).reverse ++ [x2.stored])).map Prod.fst
        = x1.path :: ((rest.map PutArgs.path).reverse ++ [x2.path]) := by
      rw [List.map_cons, List.map_append, List.map_reverse, stored_keys]
      rfl
    rw [h1] at hmem
    simp only [List.map_cons, List.mem_cons, List.mem_append, List.mem_reverse,
      List.mem_singleton, List.not_mem_nil, or_false] at hmem ⊢
    tauto
  obtain ⟨c3, hr3, he3, _⟩ := exact_put_args he2 y (hv y (List.mem_cons_self _ _)) hyk
  have hvs3 : lru_put c2.max_size
      (x1.stored :: ((rest.map PutArgs.stored).reverse ++ [x2.stored])) y.stored
      = y.stored :: x1.stored :: (rest.map PutArgs.stored).reverse := by
    have hnl : ¬ (((x1.stored :: ((rest.map PutArgs.stored).reverse
        ++ [x2.stored])).length : Int) < c2.max_size) := by
      rw [hm2, hm1']
      simp only [List.length_cons, List.length_append, List.length_reverse, List.length_map,
        List.length_nil]
      push_cast
      omega
    unfold lru_put
    rw [if_neg hnl, ← List.cons_append, List.dropLast_concat]
  rw [hvs3] at he3
  have hk3 : (y.stored :: x1.stored :: (rest.map PutArgs.stored).reverse).map Prod.fst
      = y.path :: x1.path :: (rest.map PutArgs.path).reverse := by
    rw [List.map_cons, List.map_cons, List.map_reverse, stored_keys]
    rfl
  refine ⟨c3, ?_, ?_, ?_, ?_, ?_⟩
  · rw [run_append, hr1]
    show run c1 [Op.get x1.path, y.op] = some c3
    have hstep : step c1 (Op.get x1.path) = some c2 := by simp [step, hget']
    simp only [run, hstep]
    exact hr3
  · rw [he3.cache_keys_eq, hk3]
  · apply exact_get_miss he3
    rw [hk3]
    intro hmem
    have h2 := hnd'.1
    rw [List.map_cons, List.map_cons, List.nodup_cons, List.nodup_cons] at h2
    simp only [List.mem_cons, List.mem_reverse] at hmem
    rcases hmem with h | h | h
    · exact hnd'.2.2 (by rw [← h]; simp) (List.mem_singleton_self y.path)
    · exact h2.1 (by rw [← h]; exact List.mem_cons_self _ _)
    · exact h2.2.1 h
  · obtain ⟨c', p, hg, hpay, _, _⟩ := exact_get_hit he3
      (List.mem_cons_of_mem _ (List.mem_cons_self x1.stored _))
    exact ⟨c', p, hg, hpay⟩
  · obtain ⟨c', p, hg, hpay, _, _⟩ := exact_get_hit he3 (List.mem_cons_self y.stored _)
    exact ⟨c', p, hg, hpay⟩

/-- Witness for `promotion_on_hit`: the spec's instance, capacity 2, the puts `a, b`,
then `get a` and `put c`. -/
theorem promotion_on_hit_witness :
    ∃ c, run (cache_create (((([] : List PutArgs).length + 2 : Nat)) : Int) 0)
        (([⟨"a", "text/plain", [1], 1⟩, ⟨"b", "text/plain", [2], 1⟩] : List PutArgs).map
            PutArgs.op
          ++ [Op.get (PutArgs.path ⟨"a", "text/plain", [1], 1⟩),
              PutArgs.op ⟨"c", "text/plain", [3], 1⟩]) = some c ∧
      cache_keys c
        = PutArgs.path ⟨"c", "text/plain", [3], 1⟩
          :: PutArgs.path ⟨"a", "text/plain", [1], 1⟩
          :: (([] : List PutArgs).map PutArgs.path).reverse ∧
      cache_get c (PutArgs.path ⟨"b", "text/plain", [2], 1⟩) = some (c, none) ∧
      (∃ c' p, cache_get c (PutArgs.path ⟨"a", "text/plain", [1], 1⟩) = some (c', some p) ∧
        payload_at c' p = some (PutArgs.stored ⟨"a", "text/plain", [1], 1⟩)) ∧
      (∃ c' p, cache_get c (PutArgs.path ⟨"c", "text/plain", [3], 1⟩) = some (c', some p) ∧
        payload_at c' p = some (PutArgs.stored ⟨"c", "text/plain", [3], 1⟩)) :=
  promotion_on_hit 0 ⟨"a", "text/plain", [1], 1⟩ ⟨"b", "text/plain", [2], 1⟩ []
    ⟨"c", "text/plain", [3], 1⟩ (by decide) (by decide)

/-- The spec's instance of promotion on hit, evaluated: capacity 2, after
`put a, put b, get a, put c` the keys are `c, a` and `get b` misses. -/
theorem promotion_on_hit_instance :
    (run (cache_create 2 0)
        [Op.put "a" "t" [1] 1, Op.put "b" "t" [2] 1, Op.get "a",
         Op.put "c" "t" [3] 1]).map cache_keys
      = some ["c", "a"] ∧
    ((run (cache_create 2 0)
        [Op.put "a" "t" [1] 1, Op.put "b" "t" [2] 1, Op.get "a",
         Op.put "c" "t" [3] 1]).bind
        (fun c => (cache_get c "b").map Prod.snd)) = some none := by
  decide

/-- C9 (idempotent promotion). In every cache state reached from `cache_create`
(`max_size ≥ 1`) by `cache_put`/`cache_get` calls whose list is non-empty,
`cache_get` with the path of the head entry returns and leaves the whole cache
state (list order, head, tail, `cur_size`, index) as it was; so does any number of
repeated such calls. -/
theorem idempotent_promotion (max_size hashsize : Int) (hmax : 1 ≤ max_size)
    (ops : List Op) (c : cache)
    (hrun : run (cache_create max_size hashsize) ops = some c)
    (h : Nat) (hh : c.head = some h) (n : Nat) :
    (∃ r, cache_get c (path_at c h) = some (c, r)) ∧
      run c (List.replicate n (Op.get (path_at c h))) = some c := by
  obtain ⟨l, hi, _⟩ := inv_of_run (inv_create hashsize hmax) hrun
  obtain ⟨r, hr⟩ := get_head hi hh
  refine ⟨⟨r, hr⟩, ?_⟩
  induction n with
  | zero => rfl
  | succ k ih =>
    have hstep : step c (Op.get (path_at c h)) = some c := by simp [step, hr]
    rw [List.replicate_succ]
    simp only [run, hstep]
    exact ih

/-- Witness for `idempotent_promotion`: the state after `put a, put b, get a` in a
cache of capacity 2, whose head is the entry at address 0 (key `a`). -/
theorem idempotent_promotion_witness :
    (∃ r, cache_get (cache_after 2 [Op.put "a" "t" [1] 1, Op.put "b" "t" [2] 1, Op.get "a"])
        (path_at (cache_after 2 [Op.put "a" "t" [1] 1, Op.put "b" "t" [2] 1, Op.get "a"]) 0)
      = some (cache_after 2 [Op.put "a" "t" [1] 1, Op.put "b" "t" [2] 1, Op.get "a"], r)) ∧
      run (cache_after 2 [Op.put "a" "t" [1] 1, Op.put "b" "t" [2] 1, Op.get "a"])
        (List.replicate 3 (Op.get
          (path_at (cache_after 2 [Op.put "a" "t" [1] 1, Op.put "b" "t" [2] 1, Op.get "a"]) 0)))
      = some (cache_after 2 [Op.put "a" "t" [1] 1, Op.put "b" "t" [2] 1, Op.get "a"]) :=
  idempotent_promotion 2 0 (by decide)
    [Op.put "a" "t" [1] 1, Op.put "b" "t" [2] 1, Op.get "a"] _ rfl 0 rfl 3

theorem cycle_aux (xs : List PutArgs) {c : cache} {l : List Nat}
    {vs : List (String × String × Int × List Nat)} {a b : String} (he : Exact c l vs)
    (hmax : c.max_size = 1) (hab : a ≠ b) (hvs : ∀ v ∈ vs, v.1 = b) (hlen : vs.length ≤ 1)
    (halt : Alternating a b xs) (hv : ∀ y ∈ xs, y.valid) :
    ∃ c' l', run c (xs.map PutArgs.op) = some c' ∧
      Exact c' l' (match xs.getLast? with
                   | none => vs
                   | some x => [x.stored]) ∧ c'.max_size = 1 := by
  induction xs generalizing c l vs a b with
  | nil => exact ⟨c, l, rfl, he, hmax⟩
  | cons x rest ih =>
    obtain ⟨hxa, hrest⟩ := halt
    have hk : x.path ∉ vs.map Prod.fst := by
      intro hmem
      obtain ⟨v, hv1, hv2⟩ := List.mem_map.1 hmem
      exact hab (hxa.symm.trans (hv2.symm.trans (hvs v hv1)))
    obtain ⟨c1, hr1, he1, hm1⟩ := exact_put_args he x (hv x (List.mem_cons_self _ _)) hk
    have hl1 : lru_put c.max_size vs x.stored = [x.stored] := by
      unfold lru_put
      rw [hmax]
      match vs, hlen with
      | [], _ => simp
      | [v], _ => simp
    rw [hl1] at he1
    have hx1 : ∀ v ∈ [x.stored], v.1 = a := by
      intro v hv1
      rw [List.mem_singleton.1 hv1]
      exact hxa
    obtain ⟨c2, l2, hr2, he2, hm2⟩ := ih he1 (hm1.trans hmax) (Ne.symm hab) hx1
      (by simp) hrest (fun y hy => hv y (List.mem_cons_of_mem _ hy))
    refine ⟨c2, l2, ?_, ?_, hm2⟩
    · have : (x :: rest).map PutArgs.op = [x.op] ++ rest.map PutArgs.op := rfl
      rw [this, run_append, hr1]
      exact hr2
    · rw [List.getLast?_cons]
      cases hlast : rest.getLast? with
      | none => rw [hlast] at he2; exact he2
      | some z => rw [hlast] at he2; exact he2

/-- C10 (single-entry cycle). In a cache with `max_size = 1`, after every call of an
alternating sequence `put(a), put(b), put(a), ...` with `a ≠ b` (here: after the
last put `x` of any non-empty alternating sequence) the calls have returned,
`cur_size = 1`, the list holds only the entry just put (`head = tail`),
`cache_get` of the key just put returns that entry and changes nothing, and
`cache_get` of any other key returns `NULL`. -/
theorem single_entry_cycle (hashsize : Int) (a b : String) (hab : a ≠ b)
    (xs : List PutArgs) (x : PutArgs) (halt : Alternating a b (xs ++ [x]))
    (hv : ∀ y ∈ xs ++ [x], y.valid) :
    ∃ c p, run (cache_create 1 hashsize) ((xs ++ [x]).map PutArgs.op) = some c ∧
      c.cur_size = 1 ∧ cache_list c = [p] ∧ c.head = some p ∧ c.tail = some p ∧
      payload_at c p = some x.stored ∧
      cache_get c x.path = some (c, some p) ∧
      ∀ k, k ≠ x.path → cache_get c k = some (c, none) := by
  obtain ⟨c, l, hr, he, _⟩ := cycle_aux (xs ++ [x]) (exact_create hashsize (le_refl 1))
    rfl hab (fun v hv1 => by cases hv1) (Nat.zero_le 1) halt hv
  rw [List.getLast?_append, List.getLast?_singleton] at he
  have he' : Exact c l [x.stored] := he
  have hlen : l.length = 1 := he'.length_eq
  obtain ⟨p, rfl⟩ : ∃ p, l = [p] := List.length_eq_one.1 hlen
  have hpay : payload_at c p = some x.stored := by
    have := he'.contents
    simpa using this
  have hhead : c.head = some p := he'.inv.lst.head
  have hpath : path_at c p = x.path := path_at_of_payload_at hpay
  have hlook : c.index.lookup x.path = some p := by
    rw [← hpath]; exact he'.corr p (List.mem_singleton_self p)
  refine ⟨c, p, hr, ?_, he'.inv.list_eq, hhead, he'.inv.lst.tail, hpay, ?_, ?_⟩
  · rw [he'.inv.lst.size]; rfl
  · simp [cache_get, hashtable_get, hlook, dllist_move_to_head, hhead]
  · intro k hk
    apply exact_get_miss he'
    intro hmem
    apply hk
    simpa using hmem

/-- Witness for `single_entry_cycle`: the sequence `put a, put b, put a`. -/
theorem single_entry_cycle_witness :
    ∃ c p, run (cache_create 1 0)
        ((([⟨"a", "t", [1], 1⟩, ⟨"b", "t", [2, 3], 2⟩] : List PutArgs)
          ++ [(⟨"a", "u", [4], 1⟩ : PutArgs)]).map PutArgs.op) = some c ∧
      c.cur_size = 1 ∧ cache_list c = [p] ∧ c.head = some p ∧ c.tail = some p ∧
      payload_at c p = some (PutArgs.stored ⟨"a", "u", [4], 1⟩) ∧
      cache_get c (PutArgs.path ⟨"a", "u", [4], 1⟩) = some (c, some p) ∧
      ∀ k, k ≠ PutArgs.path ⟨"a", "u", [4], 1⟩ → cache_get c k = some (c, none) :=
  single_entry_cycle 0 "a" "b" (by decide) [⟨"a", "t", [1], 1⟩, ⟨"b", "t", [2, 3], 2⟩]
    ⟨"a", "u", [4], 1⟩ (by decide) (by decide)

theorem Inv.at_list {c : cache} {l : List Nat} (hi : Inv c l) : Inv c (cache_list c) := by
  rw [hi.list_eq]; exact hi

theorem inv_reachable (max_size hashsize : Int) (hmax : 1 ≤ max_size) (ops : List Op)
    (c : cache) (hrun : run (cache_create max_size hashsize) ops = some c) :
    Inv c (cache_list c) := by
  obtain ⟨l, hi, _⟩ := inv_of_run (inv_create hashsize hmax) hrun
  exact hi.at_list

/-- C8 (eviction step). Let `c` be a well-formed cache (it satisfies the invariant
`Inv` of the public operations on its list `cache_list c`, which includes
`max_size ≥ 1`) with `cur_size = max_size`, and let `path` be a key that no list entry
carries. Then `cache_put` (with a buffer of `content_length` bytes) returns; the
entry `t` that was the tail is released and its key is deleted from the index; the
list afterwards is the new entry followed by the old list without its last entry
`t`, in the old order; the new entry is the head, holds the put payload and is
indexed under `path`; the kept entries keep their payloads; `cur_size = max_size` still; and
the resulting cache is well formed again. -/
theorem eviction_step (c : cache) (hi : Inv c (cache_list c))
    (hfull : c.cur_size = c.max_size) (path ct : String) (b : List Nat) (n : Int)
    (h0 : 0 ≤ n) (h1 : n ≤ (b.length : Int))
    (hkey : ∀ a ∈ cache_list c, path_at c a ≠ path) :
    ∃ c' t, cache_put c path ct b n = some c' ∧ c.tail = some t ∧
      (cache_list c).getLast? = some t ∧
      cache_list c' = c.brk :: (cache_list c).dropLast ∧
      c'.mem t = none ∧ c'.index.lookup (path_at c t) = none ∧
      c'.head = some c.brk ∧ payload_at c' c.brk = some (stored path ct b n) ∧
      c'.index.lookup path = some c.brk ∧
      (∀ a ∈ (cache_list c).dropLast, payload_at c' a = payload_at c a) ∧
      c'.cur_size = c'.max_size ∧ c'.max_size = c.max_size ∧
      Inv c' (cache_list c') := by
  obtain ⟨c', hput, hpost⟩ := put_spec hi path ct h0 h1
  have hnl : ¬ c.cur_size < c.max_size := by omega
  have hpl : put_list c (cache_list c) = c.brk :: (cache_list c).dropLast := by
    simp [put_list, hnl]
  have hne : cache_list c ≠ [] := by
    intro h
    have h1 := hi.lst.size
    have h2 := hi.pos
    rw [h] at h1
    simp at h1
    omega
  obtain ⟨t, ht⟩ : ∃ t, (cache_list c).getLast? = some t := by
    cases hl : (cache_list c).getLast? with
    | none => exact absurd (List.getLast?_eq_none_iff.1 hl) hne
    | some t => exact ⟨t, rfl⟩
  have htm : t ∈ cache_list c := List.mem_of_getLast?_eq_some ht
  have hinv := hpost.inv
  rw [hpl] at hinv
  have hnm := hi.brk_not_mem
  refine ⟨c', t, hput, hi.lst.tail.trans ht, ht, hinv.list_eq, hpost.freed hnl t ht, ?_,
    hinv.lst.head, hpost.entry, ?_, ?_, ?_, hpost.max_size, hinv.at_list⟩
  · rw [hpost.index]
    simp [put_index, hnl, ht]
  · rw [hpost.index]
    have : ¬ path = path_at c t := fun h => hkey t htm h.symm
    simp [put_index, hnl, ht, this]
  · intro a ha
    have hal : a ∈ cache_list c := List.mem_of_mem_dropLast ha
    have hab : a ≠ c.brk := by rintro rfl; exact hnm hal
    exact hpost.kept a (by rw [hpl]; exact List.mem_cons_of_mem _ ha) hab
  · rw [hinv.lst.size, hpost.max_size, ← hfull, hi.lst.size]
    simp only [List.length_cons, List.length_dropLast]
    have : 0 < (cache_list c).length := List.length_pos.2 hne
    push_cast
    omega

/-- Witness for `eviction_step`: the full cache of capacity 1 holding `a`, and a put
of `b`. -/
theorem eviction_step_witness :
    ∃ c' t, cache_put (cache_after 1 [Op.put "a" "t" [1] 1]) "b" "u" [2, 3] 2 = some c' ∧
      (cache_after 1 [Op.put "a" "t" [1] 1]).tail = some t ∧
      (cache_list (cache_after 1 [Op.put "a" "t" [1] 1])).getLast? = some t ∧
      cache_list c' = (cache_after 1 [Op.put "a" "t" [1] 1]).brk
        :: (cache_list (cache_after 1 [Op.put "a" "t" [1] 1])).dropLast ∧
      c'.mem t = none ∧
      c'.index.lookup (path_at (cache_after 1 [Op.put "a" "t" [1] 1]) t) = none ∧
      c'.head = some (cache_after 1 [Op.put "a" "t" [1] 1]).brk ∧
      payload_at c' (cache_after 1 [Op.put "a" "t" [1] 1]).brk
        = some (stored "b" "u" [2, 3] 2) ∧
      c'.index.lookup "b" = some (cache_after 1 [Op.put "a" "t" [1] 1]).brk ∧
      (∀ a ∈ (cache_list (cache_after 1 [Op.put "a" "t" [1] 1])).dropLast,
        payload_at c' a = payload_at (cache_after 1 [Op.put "a" "t" [1] 1]) a) ∧
      c'.cur_size = c'.max_size ∧
      c'.max_size = (cache_after 1 [Op.put "a" "t" [1] 1]).max_size ∧
      Inv c' (cache_list c') :=
  eviction_step (cache_after 1 [Op.put "a" "t" [1] 1])
    (inv_reachable 1 0 (by decide) [Op.put "a" "t" [1] 1] _ rfl)
    rfl "b" "u" [2, 3] 2 (by decide) (by decide) (by decide)

/-- C4, counterexample. The claim fails in a reachable state: in a cache of capacity
1 that holds key `a`, `cache_put(a, ...)` returns, but the eviction of the old
entry deletes key `a` from the index, so the `cache_get(a)` directly after it
returns `NULL`. It also fails for a negative `content_length`, where `cache_put` is
undefined. -/
theorem round_trip_counterexample :
    ((run (cache_create 1 0) [Op.put "a" "t" [1] 1]).bind
        (fun c => (cache_put c "a" "t" [7] 1).bind
          (fun c1 => (cache_get c1 "a").map Prod.snd))) = some none ∧
    (cache_put (cache_create 1 0) "a" "t" [] (-1)).isNone = true := by
  decide

/-- C4, amended (round-trip integrity). In every cache state reached from
`cache_create` (`max_size ≥ 1`) by `cache_put`/`cache_get` calls, for every put
whose buffer holds `content_length ≥ 0` bytes and whose path is not the path of the
tail entry of a full cache: `cache_put` returns and `cache_get(path)` directly after
it returns a non-`NULL` entry with that path, whose content is the first
`content_length` bytes of the buffer (the whole buffer when it holds exactly
`content_length` bytes) and whose `content_type` and `content_length` are the
supplied ones. -/
theorem round_trip (max_size hashsize : Int) (hmax : 1 ≤ max_size) (ops : List Op)
    (c : cache) (hrun : run (cache_create max_size hashsize) ops = some c)
    (path ct : String) (b : List Nat) (n : Int) (h0 : 0 ≤ n) (h1 : n ≤ (b.length : Int))
    (hcond : c.cur_size < c.max_size ∨ ∀ t, c.tail = some t → path_at c t ≠ path) :
    ∃ c1 c2 p e, cache_put c path ct b n = some c1 ∧
      cache_get c1 path = some (c2, some p) ∧ c2.mem p = some e ∧ e.path = path ∧
      e.content = b.take n.toNat ∧ (n = (b.length : Int) → e.content = b) ∧
      e.content_type = ct ∧ e.content_length = n := by
  obtain ⟨l, hi, _⟩ := inv_of_run (inv_create hashsize hmax) hrun
  obtain ⟨c1, hput, hpost⟩ := put_spec hi path ct h0 h1
  have hlook : c1.index.lookup path = some c.brk := by
    rw [hpost.index]
    unfold put_index
    split
    · simp
    · rename_i hfull
      have hlast : ¬ some path = l.getLast?.map (path_at c) := by
        rcases hcond with h | h
        · exact absurd h hfull
        · intro hp
          cases hl : l.getLast? with
          | none => rw [hl] at hp; cases hp
          | some t =>
            rw [hl] at hp
            have hpt : path = path_at c t := by simpa using hp
            exact h t (hi.lst.tail.trans hl) hpt.symm
      rw [if_neg hlast, if_pos rfl]
  obtain ⟨c2, hget, _, hfr⟩ := get_hit_spec hpost.inv hlook
  have hpay : (c2.mem c.brk).map payload = some (path, ct, n, b.take n.toNat) :=
    (hfr.data c.brk).trans hpost.entry
  cases he : c2.mem c.brk with
  | none => rw [he] at hpay; cases hpay
  | some e =>
    rw [he] at hpay
    have hp : payload e = (path, ct, n, b.take n.toNat) := by simpa using hpay
    simp only [payload, Prod.mk.injEq] at hp
    refine ⟨c1, c2, c.brk, e, hput, hget, he, hp.1, hp.2.2.2, ?_, hp.2.1, hp.2.2.1⟩
    intro hn
    rw [hp.2.2.2, hn]
    simp

/-- Witness for `round_trip`: a put of a new key into a full cache of capacity 1. -/
theorem round_trip_witness :
    ∃ c1 c2 p e, cache_put (cache_after 1 [Op.put "a" "t" [1] 1]) "b" "u" [2, 3] 2 = some c1 ∧
      cache_get c1 "b" = some (c2, some p) ∧ c2.mem p = some e ∧ e.path = "b" ∧
      e.content = ([2, 3] : List Nat).take (2 : Int).toNat ∧
      ((2 : Int) = (([2, 3] : List Nat).length : Int) → e.content = [2, 3]) ∧
      e.content_type = "u" ∧ e.content_length = 2 :=
  round_trip 1 0 (by decide) [Op.put "a" "t" [1] 1] (cache_after 1 [Op.put "a" "t" [1] 1])
    rfl "b" "u" [2, 3] 2 (by decide) (by decide)
    (Or.inr (fun t ht => by
      have h : (cache_after 1 [Op.put "a" "t" [1] 1]).tail = some 0 := rfl
      rw [h] at ht
      cases ht
      decide))

theorem Exact.mem_keys_of_lookup {c : cache} {l : List Nat}
    {vs : List (String × String × Int × List Nat)} (he : Exact c l vs) {k : String}
    {a : Nat} (h : c.index.lookup k = some a) : ∃ v ∈ vs, v.1 = k := by
  obtain ⟨ha, hak⟩ := he.inv.idx k a h
  have hmem : payload_at c a ∈ vs.map some := by
    rw [← he.contents]; exact List.mem_map_of_mem _ ha
  obtain ⟨v, hv, hva⟩ := List.mem_map.1 hmem
  exact ⟨v, hv, (path_at_of_payload_at hva.symm).symm.trans hak⟩

theorem Exact.lookup_of_mem_keys {c : cache} {l : List Nat}
    {vs : List (String × String × Int × List Nat)} (he : Exact c l vs) {k : String}
    (hk : k ∈ vs.map Prod.fst) : ∃ a ∈ l, path_at c a = k ∧ c.index.lookup k = some a := by
  rw [← he.keys_eq] at hk
  obtain ⟨a, ha, hak⟩ := List.mem_map.1 hk
  exact ⟨a, ha, hak, hak ▸ he.corr a ha⟩

theorem exact_run {c : cache} {l : List Nat}
    {vs : List (String × String × Int × List Nat)} (he : Exact c l vs) (ops : List Op)
    (hfresh : fresh_puts c ops = true) (hv : ∀ o ∈ ops, o.valid) :
    ∃ c' l' vs', run c ops = some c' ∧ Exact c' l' vs' := by
  induction ops generalizing c l vs with
  | nil => exact ⟨c, l, vs, rfl, he⟩
  | cons o rest ih =>
    simp only [fresh_puts, Bool.and_eq_true] at hfresh
    obtain ⟨hf1, hf2⟩ := hfresh
    have hstep : ∃ c1 l1 vs1, step c o = some c1 ∧ Exact c1 l1 vs1 := by
      cases o with
      | put p t b n =>
        have hnone : c.index.lookup p = none := by
          simpa [hashtable_get] using hf1
        have hk : p ∉ vs.map Prod.fst := by
          intro hmem
          obtain ⟨a, _, _, hla⟩ := he.lookup_of_mem_keys hmem
          rw [hnone] at hla
          cases hla
        have hval := hv _ (List.mem_cons_self _ _)
        obtain ⟨c1, hput, he1, _, _⟩ := exact_put he p t hval.1 hval.2 hk
        exact ⟨c1, _, _, hput, he1⟩
      | get k =>
        cases hl : c.index.lookup k with
        | none => exact ⟨c, l, vs, by simp [step, get_miss hl], he⟩
        | some a =>
          obtain ⟨v, hvm, hvk⟩ := he.mem_keys_of_lookup hl
          obtain ⟨c1, q, hget, _, he1, _⟩ := exact_get_hit he hvm
          rw [hvk] at hget
          exact ⟨c1, _, _, by simp [step, hget], he1⟩
    obtain ⟨c1, l1, vs1, hs, he1⟩ := hstep
    rw [hs] at hf2
    obtain ⟨c2, l2, vs2, hr, he2⟩ :=
      ih he1 hf2 (fun x hx => hv x (List.mem_cons_of_mem _ hx))
    exact ⟨c2, l2, vs2, by simp [run, hs, hr], he2⟩

/-- C6, counterexample. With a duplicate key the correspondence breaks: in a cache
of capacity 1, after `put a, put a` the list holds an entry with key `a` while the
index has no association for `a`; in a cache of capacity 2, after `put a, put a` two
list entries carry the key `a`. -/
theorem list_index_counterexample :
    (run (cache_create 1 0) [Op.put "a" "t" [] 0, Op.put "a" "t" [] 0]).map
        (fun c => (cache_keys c, c.index.lookup "a")) = some (["a"], none) ∧
    (run (cache_create 2 0) [Op.put "a" "t" [] 0, Op.put "a" "t" [] 0]).map
        (fun c => (cache_keys c, c.index.lookup "a")) = some (["a", "a"], some 1) := by
  decide

/-- C6, amended (list/index correspondence). For a cache made by `cache_create`
(`max_size ≥ 1`) and every sequence of `cache_put`/`cache_get` calls in which each
put is given a buffer of `content_length` bytes and a path the index does not hold
at the time of the call: the calls return, and afterwards a key is carried by a
list entry exactly when the index holds it, the index maps a key to an entry
exactly when that entry is in the list and carries the key, and no two list
entries carry the same key. -/
theorem list_index_correspondence (max_size hashsize : Int) (hmax : 1 ≤ max_size)
    (ops : List Op) (hfresh : fresh_puts (cache_create max_size hashsize) ops = true)
    (hv : ∀ o ∈ ops, o.valid) :
    ∃ c, run (cache_create max_size hashsize) ops = some c ∧
      (∀ k, (∃ a ∈ cache_list c, path_at c a = k) ↔ c.index.lookup k ≠ none) ∧
      (∀ k a, c.index.lookup k = some a ↔ (a ∈ cache_list c ∧ path_at c a = k)) ∧
      (cache_keys c).Nodup := by
  obtain ⟨c, l, vs, hr, he⟩ := exact_run (exact_create hashsize hmax) ops hfresh hv
  have hl : cache_list c = l := he.inv.list_eq
  refine ⟨c, hr, ?_, ?_, ?_⟩
  · intro k
    rw [hl]
    constructor
    · rintro ⟨a, ha, hak⟩
      rw [← hak, he.corr a ha]
      exact Option.some_ne_none a
    · intro hne
      cases hk : c.index.lookup k with
      | none => exact absurd hk hne
      | some a =>
        obtain ⟨ha, hak⟩ := he.inv.idx k a hk
        exact ⟨a, ha, hak⟩
  · intro k a
    rw [hl]
    constructor
    · exact he.inv.idx k a
    · rintro ⟨ha, hak⟩
      rw [← hak]; exact he.corr a ha
  · rw [he.cache_keys_eq]; exact he.keys

/-- Witness for `list_index_correspondence`: a run in which the one repeated put of
a key comes after that key was evicted. -/
theorem list_index_correspondence_witness :
    ∃ c, run (cache_create 2 0)
        [Op.put "a" "t" [1] 1, Op.get "a", Op.put "b" "t" [2] 1, Op.get "c",
         Op.put "c" "t" [3] 1, Op.put "a" "t" [4] 1] = some c ∧
      (∀ k, (∃ a ∈ cache_list c, path_at c a = k) ↔ c.index.lookup k ≠ none) ∧
      (∀ k a, c.index.lookup k = some a ↔ (a ∈ cache_list c ∧ path_at c a = k)) ∧
      (cache_keys c).Nodup :=
  list_index_correspondence 2 0 (by decide) _ (by decide) (by decide)

theorem seg_getElem {m : Nat → Option cache_entry} {l : List Nat} {prv nxt : Option Nat}
    (hs : Seg m prv l nxt) {i x : Nat} (hx : l[i]? = some x) :
    ∃ e, m x = some e ∧
      e.next = (match l[i + 1]? with
                | some y => some y
                | none => nxt) ∧
      e.prev = (if i = 0 then prv else l[i - 1]?) := by
  induction l generalizing prv i with
  | nil => simp at hx
  | cons a rest ih =>
    obtain ⟨e, he, hp, hn, hr⟩ := hs
    cases i with
    | zero =>
      have hax : a = x := by simpa using hx
      subst hax
      refine ⟨e, he, ?_, by simp [hp]⟩
      rw [hn]
      cases rest <;> simp [hdOr]
    | succ j =>
      rw [List.getElem?_cons_succ] at hx
      obtain ⟨e', he', hn', hp'⟩ := ih hr hx
      refine ⟨e', he', ?_, ?_⟩
      · rw [hn', List.getElem?_cons_succ]
      · rw [hp']
        cases j with
        | zero => simp
        | succ k => simp

/-- C7 (recency-list well-formedness). In every cache state reached from
`cache_create` (`max_size ≥ 1`) by `cache_put`/`cache_get` calls (any keys) there is a
list `l` of pairwise distinct entry addresses (no cycle) with `cur_size` elements
such that following `next` from `head` visits exactly `l` and then reaches `NULL`,
however much further one would walk; `head` is the first and `tail` the last
element of `l`; `head->prev` and `tail->next` are `NULL`; every listed entry is
allocated; for listed entries `x`, `y`, `x->next = y` iff `y->prev = x`; and
`head = tail = NULL` exactly when `cur_size = 0`. -/
theorem list_well_formed (max_size hashsize : Int) (hmax : 1 ≤ max_size) (ops : List Op)
    (c : cache) (hrun : run (cache_create max_size hashsize) ops = some c) :
    ∃ l : List Nat, l.Nodup ∧ (l.length : Int) = c.cur_size ∧
      (∀ fuel, l.length ≤ fuel → dllist_walk c.mem fuel c.head = l) ∧
      c.head = l.head? ∧ c.tail = l.getLast? ∧
      (∀ h e, c.head = some h → c.mem h = some e → e.prev = none) ∧
      (∀ t e, c.tail = some t → c.mem t = some e → e.next = none) ∧
      (∀ x ∈ l, ∃ e, c.mem x = some e) ∧
      (∀ x y ex ey, x ∈ l → y ∈ l → c.mem x = some ex → c.mem y = some ey →
        (ex.next = some y ↔ ey.prev = some x)) ∧
      ((c.head = none ∧ c.tail = none) ↔ c.cur_size = 0) := by
  obtain ⟨l, hi, _⟩ := inv_of_run (inv_create hashsize hmax) hrun
  have hl := hi.lst
  have hget : ∀ {i x : Nat}, l[i]? = some x → ∀ e, c.mem x = some e →
      e.next = l[i + 1]? ∧ e.prev = (if i = 0 then none else l[i - 1]?) := by
    intro i x hx e he
    obtain ⟨e', he', hn, hp⟩ := seg_getElem hl.seg hx
    have : e' = e := Option.some.inj (he'.symm.trans he)
    subst this
    refine ⟨?_, hp⟩
    rw [hn]
    cases l[i + 1]? <;> rfl
  refine ⟨l, hl.nodup, hl.size.symm, ?_, hl.head, hl.tail, ?_, ?_, ?_, ?_, ?_⟩
  · intro fuel hf
    rw [hl.head]
    exact walk_of_seg hl.seg hf
  · intro h e hh he
    rw [hl.head, List.head?_eq_getElem?] at hh
    simpa using (hget hh e he).2
  · intro t e ht he
    rw [hl.tail, List.getLast?_eq_getElem?] at ht
    have hlen : l.length - 1 < l.length := (List.getElem?_eq_some_iff.1 ht).1
    have h1 := (hget ht e he).1
    rw [h1]
    exact List.getElem?_eq_none (by omega)
  · intro x hx
    exact seg_live hl.seg hx
  · intro x y ex ey hx hy hex hey
    obtain ⟨i, hi'⟩ := List.getElem?_of_mem hx
    obtain ⟨j, hj⟩ := List.getElem?_of_mem hy
    have hxn := (hget hi' ex hex).1
    have hyp := (hget hj ey hey).2
    have hil : i < l.length := (List.getElem?_eq_some_iff.1 hi').1
    have hjl : j < l.length := (List.getElem?_eq_some_iff.1 hj).1
    constructor
    · intro h
      rw [hxn] at h
      have hlt : i + 1 < l.length := (List.getElem?_eq_some_iff.1 h).1
      have hij : i + 1 = j := List.getElem?_inj hlt hl.nodup (h.trans hj.symm)
      subst hij
      rw [hyp]
      simpa using hi'
    · intro h
      rw [hyp] at h
      by_cases hj0 : j = 0
      · rw [if_pos hj0] at h; cases h
      · rw [if_neg hj0] at h
        have hlt : j - 1 < l.length := by omega
        have hij : j - 1 = i := List.getElem?_inj hlt hl.nodup (h.trans hi'.symm)
        have : i + 1 = j := by omega
        rw [hxn, this]; exact hj
  · rw [hl.head, hl.tail, hl.size]
    cases l with
    | nil => simp
    | cons a r =>
      simp only [List.head?_cons, List.length_cons]
      constructor
      · rintro ⟨h, _⟩; cases h
      · intro h
        push_cast at h
        omega

/-- Witness for `list_well_formed`: the state after `duplicate_run` in a cache of
capacity 2. -/
theorem list_well_formed_witness :
    ∃ l : List Nat, l.Nodup ∧
      (l.length : Int)
        = (cache_after 2 duplicate_run).cur_size ∧
      (∀ fuel, l.length ≤ fuel →
        dllist_walk
          (cache_after 2 duplicate_run).mem fuel
          (cache_after 2 duplicate_run).head = l) ∧
      (cache_after 2 duplicate_run).head = l.head? ∧
      (cache_after 2 duplicate_run).tail = l.getLast? ∧
      (∀ h e, (cache_after 2 duplicate_run).head = some h →
        (cache_after 2 duplicate_run).mem h = some e → e.prev = none) ∧
      (∀ t e, (cache_after 2 duplicate_run).tail = some t →
        (cache_after 2 duplicate_run).mem t = some e → e.next = none) ∧
      (∀ x ∈ l, ∃ e, (cache_after 2 duplicate_run).mem x = some e) ∧
      (∀ x y ex ey, x ∈ l → y ∈ l →
        (cache_after 2 duplicate_run).mem x = some ex →
        (cache_after 2 duplicate_run).mem y = some ey →
        (ex.next = some y ↔ ey.prev = some x)) ∧
      (((cache_after 2 duplicate_run).head = none ∧
        (cache_after 2 duplicate_run).tail = none) ↔
        (cache_after 2 duplicate_run).cur_size = 0) :=
  list_well_formed 2 0 (by decide) duplicate_run _ rfl

/-- C11 (a miss has no side effects). In every cache state, for every path the index
has no association for, `cache_get` returns `NULL` and the very same cache state:
`head`, `tail`, `cur_size`, `max_size`, the memory of the entries (so every `prev`
and `next` link) and the index are as they were. -/
theorem miss_no_side_effects (c : cache) (path : String)
    (hmiss : hashtable_get c.index path = none) :
    cache_get c path = some (c, none) :=
  get_miss hmiss

/-- Witness for `miss_no_side_effects`: a lookup of `c` in a cache holding `b, a`. -/
theorem miss_no_side_effects_witness :
    cache_get (cache_after 2 [Op.put "a" "t" [1] 1, Op.put "b" "t" [2] 1]) "c"
      = some (cache_after 2 [Op.put "a" "t" [1] 1, Op.put "b" "t" [2] 1], none) :=
  miss_no_side_effects (cache_after 2 [Op.put "a" "t" [1] 1, Op.put "b" "t" [2] 1]) "c" rfl

/-- C12, counterexample. `cache_create(0, 0)` reports no failure: it returns a cache
whose `max_size` is 0 and which answers a lookup (with a miss). -/
theorem create_invalid_capacity_counterexample :
    (cache_create 0 0).max_size = 0 ∧
      cache_get (cache_create 0 0) "/index.html" = some (cache_create 0 0, none) :=
  ⟨rfl, rfl⟩

/-- C12, amended. For every `max_size`, also below 1, `cache_create` reports no
failure: it returns an empty cache (`cur_size = 0`, `head = tail = NULL`, empty
index and list) whose `max_size` is exactly the value given; it never clamps. -/
theorem create_keeps_capacity (max_size hashsize : Int) :
    (cache_create max_size hashsize).max_size = max_size ∧
      (cache_create max_size hashsize).cur_size = 0 ∧
      (cache_create max_size hashsize).head = none ∧
      (cache_create max_size hashsize).tail = none ∧
      (∀ k, hashtable_get (cache_create max_size hashsize).index k = none) ∧
      cache_list (cache_create max_size hashsize) = [] :=
  ⟨rfl, rfl, rfl, rfl, fun _ => rfl, rfl⟩

/-- C14 (duplicate-key put). Let `c` be a well-formed cache (invariant `Inv`) with
`cur_size < max_size` whose index maps `k` to the entry `e`. Then `cache_put(k, ...)`
with a buffer of `content_length` bytes returns; the list afterwards is the new
entry `e'` (allocated at `brk`) followed by the whole old list, so `e` is still in
it and `cur_size` has grown by one; `e` and `e'` are different entries that both
carry the key `k`; the index maps `k` to `e'`, and maps no key to `e` any more. -/
theorem duplicate_put (c : cache) (hi : Inv c (cache_list c))
    (hroom : c.cur_size < c.max_size) (k : String) (e : Nat)
    (hk : hashtable_get c.index k = some e) (ct : String) (b : List Nat) (n : Int)
    (h0 : 0 ≤ n) (h1 : n ≤ (b.length : Int)) :
    ∃ c', cache_put c k ct b n = some c' ∧
      cache_list c' = c.brk :: cache_list c ∧ c'.head = some c.brk ∧
      e ∈ cache_list c ∧ e ≠ c.brk ∧
      c'.cur_size = c.cur_size + 1 ∧
      path_at c' e = k ∧ path_at c' c.brk = k ∧
      payload_at c' e = payload_at c e ∧ payload_at c' c.brk = some (stored k ct b n) ∧
      hashtable_get c'.index k = some c.brk ∧
      ∀ k', hashtable_get c'.index k' ≠ some e := by
  obtain ⟨c', hput, hpost⟩ := put_spec hi k ct h0 h1
  have hpl : put_list c (cache_list c) = c.brk :: cache_list c := by
    simp [put_list, hroom]
  have hinv := hpost.inv
  rw [hpl] at hinv
  obtain ⟨hel, hek⟩ := hi.idx k e hk
  have hnm := hi.brk_not_mem
  have heb : e ≠ c.brk := by rintro rfl; exact hnm hel
  have hkept := hpost.kept e (by rw [hpl]; exact List.mem_cons_of_mem _ hel) heb
  have hidx : ∀ k', c'.index.lookup k' = if k' = k then some c.brk else c.index.lookup k' := by
    intro k'
    rw [hpost.index]
    simp [put_index, hroom]
  refine ⟨c', hput, hinv.list_eq, hinv.lst.head, hel, heb, ?_, ?_, ?_, hkept, hpost.entry,
    ?_, ?_⟩
  · rw [hinv.lst.size, hi.lst.size]
    simp
  · rw [path_at_of_payload hkept]; exact hek
  · exact path_at_of_payload_at hpost.entry
  · show c'.index.lookup k = some c.brk
    rw [hidx, if_pos rfl]
  · intro k' hk'
    have hk'' : c'.index.lookup k' = some e := hk'
    rw [hidx] at hk''
    by_cases hkk : k' = k
    · rw [if_pos hkk] at hk''
      exact heb (Option.some.inj hk'').symm
    · rw [if_neg hkk] at hk''
      exact hkk ((hi.idx k' e hk'').2.symm.trans hek)

/-- Witness for `duplicate_put`: a second put of `a` into a cache of capacity 3
holding `a`. -/
theorem duplicate_put_witness :
    ∃ c', cache_put (cache_after 3 [Op.put "a" "t" [1] 1]) "a" "u" [2, 3] 2 = some c' ∧
      cache_list c' = (cache_after 3 [Op.put "a" "t" [1] 1]).brk
        :: cache_list (cache_after 3 [Op.put "a" "t" [1] 1]) ∧
      c'.head = some (cache_after 3 [Op.put "a" "t" [1] 1]).brk ∧
      0 ∈ cache_list (cache_after 3 [Op.put "a" "t" [1] 1]) ∧
      0 ≠ (cache_after 3 [Op.put "a" "t" [1] 1]).brk ∧
      c'.cur_size = (cache_after 3 [Op.put "a" "t" [1] 1]).cur_size + 1 ∧
      path_at c' 0 = "a" ∧ path_at c' (cache_after 3 [Op.put "a" "t" [1] 1]).brk = "a" ∧
      payload_at c' 0 = payload_at (cache_after 3 [Op.put "a" "t" [1] 1]) 0 ∧
      payload_at c' (cache_after 3 [Op.put "a" "t" [1] 1]).brk
        = some (stored "a" "u" [2, 3] 2) ∧
      hashtable_get c'.index "a" = some (cache_after 3 [Op.put "a" "t" [1] 1]).brk ∧
      ∀ k', hashtable_get c'.index k' ≠ some 0 :=
  duplicate_put (cache_after 3 [Op.put "a" "t" [1] 1])
    (inv_reachable 3 0 (by decide) [Op.put "a" "t" [1] 1] _ rfl)
    (by decide) "a" 0 rfl "u" [2, 3] 2 (by decide) (by decide)

/-- C15 (no dangling index reference). In every cache state reached from
`cache_create` (`max_size ≥ 1`) by `cache_put`/`cache_get` calls (any keys,
duplicates included): every entry the index refers to is in the recency list and
allocated (not released) and carries the key it is indexed under; and `cache_get`
of any path returns, and the entry it returns, if any, is allocated and in the
list of the resulting state. -/
theorem no_dangling_index (max_size hashsize : Int) (hmax : 1 ≤ max_size) (ops : List Op)
    (c : cache) (hrun : run (cache_create max_size hashsize) ops = some c) :
    (∀ k p, hashtable_get c.index k = some p →
        p ∈ cache_list c ∧ ∃ e, c.mem p = some e ∧ e.path = k) ∧
      ∀ k, ∃ c' r, cache_get c k = some (c', r) ∧
        ∀ p, r = some p → p ∈ cache_list c' ∧ ∃ e, c'.mem p = some e ∧ e.path = k := by
  have hi := inv_reachable max_size hashsize hmax ops c hrun
  have hlive : ∀ {c1 : cache} {l1 : List Nat}, Inv c1 l1 → ∀ k p,
      c1.index.lookup k = some p → p ∈ l1 ∧ ∃ e, c1.mem p = some e ∧ e.path = k := by
    intro c1 l1 hi1 k p hk
    obtain ⟨hp, hpk⟩ := hi1.idx k p hk
    obtain ⟨e, he⟩ := hi1.live hp
    refine ⟨hp, e, he, ?_⟩
    simpa [path_at, he] using hpk
  refine ⟨fun k p hk => hlive hi k p hk, ?_⟩
  intro k
  cases hk : c.index.lookup k with
  | none => exact ⟨c, none, get_miss hk, fun p hp => by cases hp⟩
  | some q =>
    obtain ⟨c', hget, hi', hfr⟩ := get_hit_spec hi hk
    refine ⟨c', some q, hget, ?_⟩
    intro p hp
    have hpq : q = p := Option.some.inj hp
    subst hpq
    have hk' : c'.index.lookup k = some q := by rw [hfr.index]; exact hk
    obtain ⟨hmem, he⟩ := hlive hi' k q hk'
    exact ⟨by rw [hi'.list_eq]; exact hmem, he⟩

/-- Witness for `no_dangling_index`: the state after `duplicate_run` in a cache of
capacity 2. -/
theorem no_dangling_index_witness :
    (∀ k p, hashtable_get (cache_after 2 duplicate_run).index k = some p →
        p ∈ cache_list (cache_after 2 duplicate_run) ∧
          ∃ e, (cache_after 2 duplicate_run).mem p = some e ∧ e.path = k) ∧
      ∀ k, ∃ c' r, cache_get (cache_after 2 duplicate_run) k = some (c', r) ∧
        ∀ p, r = some p → p ∈ cache_list c' ∧ ∃ e, c'.mem p = some e ∧ e.path = k :=
  no_dangling_index 2 0 (by decide) duplicate_run _ rfl

theorem put_create_nonpos (max_size hashsize : Int) (hmax : max_size ≤ 0)
    (path ct : String) (b : List Nat) (n : Int) :
    cache_put (cache_create max_size hashsize) path ct b n = none := by
  by_cases hv : 0 ≤ n ∧ n ≤ (b.length : Int)
  · have hgt : (0 : Int) + 1 > max_size := by omega
    simp [cache_put, alloc_entry, memcpy_valid hv.1 hv.2, dllist_insert_head, cache_create,
      set_next, set_prev, store, dllist_remove_tail, load, hgt]
    omega
  · have : memcpy b n = none := by simp [memcpy, hv]
    simp [cache_put, alloc_entry, this]

theorem run_create_nonpos (max_size hashsize : Int) (hmax : max_size ≤ 0) (ops : List Op)
    (c : cache) (hrun : run (cache_create max_size hashsize) ops = some c) :
    c = cache_create max_size hashsize := by
  induction ops with
  | nil => exact (Option.some.inj hrun).symm
  | cons o rest ih =>
    cases o with
    | put p t b n =>
      simp [run, step, put_create_nonpos max_size hashsize hmax] at hrun
    | get k =>
      have hg : cache_get (cache_create max_size hashsize) k
          = some (cache_create max_size hashsize, none) := get_miss rfl
      have hs : step (cache_create max_size hashsize) (Op.get k)
          = some (cache_create max_size hashsize) := by simp [step, hg]
      simp only [run, hs] at hrun
      exact ih hrun

theorem payload_transfer {m m' : Nat → Option cache_entry} {a : Nat}
    (h : (m' a).map payload = (m a).map payload) {e : cache_entry} (he : m' a = some e) :
    ∃ e0, m a = some e0 ∧ e0.content_length = e.content_length ∧ e0.content = e.content := by
  rw [he] at h
  cases h0 : m a with
  | none => rw [h0] at h; cases h
  | some e0 =>
    rw [h0] at h
    have hp : payload e = payload e0 := by simpa using h
    simp only [payload, Prod.mk.injEq] at hp
    exact ⟨e0, rfl, hp.2.2.1.symm, hp.2.2.2.symm⟩

theorem lengths_step {c : cache} {l : List Nat} (hi : Inv c l) (hl : LengthsOk c l)
    {o : Op} {c' : cache} (hs : step c o = some c') :
    ∃ l', Inv c' l' ∧ LengthsOk c' l' := by
  cases o with
  | put p t b n =>
    have hv : 0 ≤ n ∧ n ≤ (b.length : Int) := put_valid_of_some hs
    obtain ⟨c'', hput, hpost⟩ := put_spec hi p t hv.1 hv.2
    have hcc : c'' = c' := Option.some.inj (hput.symm.trans hs)
    subst hcc
    refine ⟨_, hpost.inv, ?_⟩
    intro a ha e he
    by_cases hab : a = c.brk
    · subst hab
      have hen := hpost.entry
      rw [he] at hen
      have hp : payload e = (p, t, n, b.take n.toNat) := by simpa using hen
      simp only [payload, Prod.mk.injEq] at hp
      refine ⟨by rw [hp.2.2.1]; exact hv.1, ?_⟩
      rw [hp.2.2.2, hp.2.2.1, List.length_take]
      have h1 : n.toNat ≤ b.length := by omega
      rw [Nat.min_eq_left h1]
      omega
    · obtain ⟨e0, he0, hlen, hcont⟩ := payload_transfer (hpost.kept a ha hab) he
      have hal : a ∈ l := by
        rcases List.mem_cons.1 ha with h | h
        · exact absurd h hab
        · split at h
          · exact h
          · exact List.mem_of_mem_dropLast h
      have := hl a hal e0 he0
      rw [hlen, hcont] at this
      exact this
  | get k =>
    cases hk : c.index.lookup k with
    | none =>
      have hcc : c = c' := by
        have := get_miss hk
        simp [step, this] at hs
        exact hs
      subst hcc
      exact ⟨l, hi, hl⟩
    | some q =>
      obtain ⟨c'', hget, hi', hfr⟩ := get_hit_spec hi hk
      have hcc : c'' = c' := by
        simp [step, hget] at hs
        exact hs
      subst hcc
      refine ⟨_, hi', ?_⟩
      intro a ha e he
      obtain ⟨e0, he0, hlen, hcont⟩ := payload_transfer (hfr.data a) he
      have hal : a ∈ l := by
        rcases List.mem_cons.1 ha with h | h
        · rw [h]; exact (hi.idx k q hk).1
        · exact List.mem_of_mem_erase h
      have := hl a hal e0 he0
      rw [hlen, hcont] at this
      exact this

theorem lengths_run {c : cache} {l : List Nat} (hi : Inv c l) (hl : LengthsOk c l)
    {ops : List Op} {c' : cache} (hr : run c ops = some c') :
    ∃ l', Inv c' l' ∧ LengthsOk c' l' := by
  induction ops generalizing c l with
  | nil =>
    have : c = c' := Option.some.inj hr
    subst this
    exact ⟨l, hi, hl⟩
  | cons o rest ih =>
    cases hs : step c o with
    | none => simp [run, hs] at hr
    | some c1 =>
      simp only [run, hs] at hr
      obtain ⟨l1, hi1, hl1⟩ := lengths_step hi hl hs
      exact ih hi1 hl1 hr

/-- C13, counterexample. A put with `content_length = -1` is not rejected with the
cache left as it was: the call is undefined (`alloc_entry` hands the negative
length to `malloc` and `memcpy`), here in a cache of capacity 2 holding one entry. -/
theorem put_negative_length_counterexample :
    (cache_put (cache_after 2 [Op.put "a" "t" [1] 1]) "b" "t" [5, 6] (-1)).isNone = true ∧
      (cache_put (cache_after 2 [Op.put "a" "t" [1] 1]) "b" "t" [5, 6] 2).isSome = true := by
  decide

/-- C13, amended. `cache_put` does not validate the supplied length: for every
cache state and every call with `content_length < 0` the call is undefined (it does
not return, and so stores nothing); and in every state reached from `cache_create`
by calls that returned, every entry in the recency list has `content_length ≥ 0`,
equal to the size of its content. -/
theorem put_negative_length (c0 : cache) (path ct : String) (b : List Nat) (n : Int)
    (hneg : n < 0) (max_size hashsize : Int) (ops : List Op) (c : cache)
    (hrun : run (cache_create max_size hashsize) ops = some c) :
    cache_put c0 path ct b n = none ∧
      ∀ a ∈ cache_list c, ∀ e, c.mem a = some e →
        0 ≤ e.content_length ∧ (e.content.length : Int) = e.content_length := by
  constructor
  · have : memcpy b n = none := by
      have : ¬ (0 ≤ n ∧ n ≤ (b.length : Int)) := by omega
      simp [memcpy, this]
    simp [cache_put, alloc_entry, this]
  · by_cases hmax : 1 ≤ max_size
    · obtain ⟨l, hi, hl⟩ := lengths_run (inv_create hashsize hmax)
        (fun a ha => by cases ha) hrun
      rw [hi.list_eq]
      exact hl
    · have hc := run_create_nonpos max_size hashsize (by omega) ops c hrun
      subst hc
      intro a ha
      cases ha

/-- Witness for `put_negative_length`: a put of length `-1`, and the state after
`duplicate_run` in a cache of capacity 2. -/
theorem put_negative_length_witness :
    cache_put (cache_create 2 0) "a" "t" [1, 2] (-1) = none ∧
      ∀ a ∈ cache_list (cache_after 2 duplicate_run), ∀ e,
        (cache_after 2 duplicate_run).mem a = some e →
          0 ≤ e.content_length ∧ (e.content.length : Int) = e.content_length :=
  put_negative_length (cache_create 2 0) "a" "t" [1, 2] (-1) (by decide) 2 0 duplicate_run
    _ rfl

/-- C16 (tail removal is defined under the capacity precondition). For a put with a
buffer of `content_length` bytes: in every state `c` reached from `cache_create`
with `max_size ≥ 1`, `alloc_entry` and `dllist_insert_head` return, and whenever the
size then exceeds `max_size` (so that `cache_put` calls `dllist_remove_tail`) the list
holds at least two entries, the tail `oldtail` and `oldtail->prev` are both
allocated entries, and `dllist_remove_tail` returns. For `bad_size ≤ 0` the first
`cache_put` on the fresh cache does call `dllist_remove_tail` with the new entry as
the only one: `oldtail->prev` is `NULL`, so `cache->tail` becomes `NULL` and the write
`cache->tail->next = NULL` is undefined, and with it the whole `cache_put`. -/
theorem remove_tail_defined (max_size bad_size hashsize : Int) (hmax : 1 ≤ max_size)
    (hbad : bad_size ≤ 0) (ops : List Op) (c : cache)
    (hrun : run (cache_create max_size hashsize) ops = some c)
    (path ct : String) (b : List Nat) (n : Int) (h0 : 0 ≤ n) (h1 : n ≤ (b.length : Int)) :
    (∃ c1 c2 e, alloc_entry c path ct b n = some (c1, c.brk) ∧
        dllist_insert_head c1 c.brk = some c2 ∧ c2.mem c.brk = some e ∧
        (c2.cur_size > c2.max_size →
          2 ≤ (cache_list c2).length ∧
          ∃ t et a ea r, c2.tail = some t ∧ c2.mem t = some et ∧ et.prev = some a ∧
            c2.mem a = some ea ∧
            dllist_remove_tail { c2 with index := hashtable_put c2.index e.path c.brk }
              = some r)) ∧
      (∃ c1 c2 e t et, alloc_entry (cache_create bad_size hashsize) path ct b n = some (c1, 0) ∧
        dllist_insert_head c1 0 = some c2 ∧ c2.mem 0 = some e ∧
        c2.cur_size > c2.max_size ∧ c2.tail = some t ∧ c2.mem t = some et ∧
        et.prev = none ∧
        dllist_remove_tail { c2 with index := hashtable_put c2.index e.path 0 } = none ∧
        cache_put (cache_create bad_size hashsize) path ct b n = none) := by
  constructor
  · obtain ⟨l, hi, _⟩ := inv_of_run (inv_create hashsize hmax) hrun
    obtain ⟨c1, c2, e, halloc, hins, hmem, _, hl2, _, hbrk2, hmax2, hkept2⟩ :=
      put_prefix hi path ct h0 h1
    refine ⟨c1, c2, e, halloc, hins, hmem, ?_⟩
    intro hgt
    have hfresh2 : ∀ a, c2.brk ≤ a → c2.mem a = none := by
      intro a ha
      rw [hbrk2] at ha
      have h := hkept2 a (by omega)
      rw [hi.fresh a (by omega)] at h
      cases hc : c2.mem a with
      | none => rfl
      | some x => rw [hc] at h; cases h
    have hlist : cache_list c2 = c.brk :: l := cache_list_eq hl2 hfresh2
    have hpos := hi.pos
    have hsz2 : c2.cur_size = (l.length : Int) + 1 := by
      rw [hl2.size]; simp
    have hlne : l ≠ [] := by
      rintro rfl
      simp at hsz2
      omega
    rcases List.eq_nil_or_concat' l with rfl | ⟨d, t, rfl⟩
    · exact absurd rfl hlne
    obtain ⟨X, a, hX⟩ : ∃ X a, c.brk :: d = X ++ [a] := by
      rcases List.eq_nil_or_concat' (c.brk :: d) with h | h
      · cases h
      · exact h
    have hlist2 : c.brk :: (d ++ [t]) = X ++ [a, t] := by
      rw [← List.cons_append, hX, List.append_assoc]; rfl
    have hl2' : Lst c2 ((X ++ [a]) ++ [t]) := by
      have := hl2
      rw [hlist2] at this
      simpa using this
    have hl3 : Lst { c2 with index := hashtable_put c2.index e.path c.brk } (X ++ [a, t]) :=
      (hlist2 ▸ hl2).transport rfl rfl rfl rfl
    obtain ⟨c4, hrem, _, _, _⟩ := remove_tail_spec hl3
    have hseg := hl2'.seg
    rw [seg_append, lastOr_append_singleton] at hseg
    obtain ⟨hs1, et, het, hpt, _, _⟩ := hseg
    obtain ⟨ea, hea⟩ := seg_live hs1 (List.mem_append_right X (List.mem_singleton_self a))
    have htail : c2.tail = some t := by
      rw [hl2'.tail, List.getLast?_append, List.getLast?_singleton]; rfl
    refine ⟨?_, t, et, a, ea, (c4, t), htail, het, hpt, hea, hrem⟩
    rw [hlist]
    simp only [List.length_cons, List.length_append, List.length_nil]
    omega
  · have hgt : (0 : Int) + 1 > bad_size := by omega
    have halloc : alloc_entry (cache_create bad_size hashsize) path ct b n
        = some ({ cache_create bad_size hashsize with
                  mem := store (fun _ => none) 0
                    { path := path, content_type := ct, content_length := n,
                      content := b.take n.toNat, prev := none, next := none }
                  brk := 0 + 1 }, 0) := by
      simp only [alloc_entry, memcpy_valid h0 h1]
      rfl
    refine ⟨_, _, _, 0, _, halloc, rfl, rfl, hgt, rfl, rfl, rfl, rfl,
      put_create_nonpos bad_size hashsize hbad path ct b n⟩

/-- Witness for `remove_tail_defined`: a put of `c` into the full cache of capacity 2
holding `b, a`, and the first put into a cache created with capacity 0. -/
theorem remove_tail_defined_witness :
    (∃ c1 c2 e,
        alloc_entry (cache_after 2 [Op.put "a" "t" [1] 1, Op.put "b" "t" [2] 1]) "c" "t" [3] 1
          = some (c1, (cache_after 2 [Op.put "a" "t" [1] 1, Op.put "b" "t" [2] 1]).brk) ∧
        dllist_insert_head c1 (cache_after 2 [Op.put "a" "t" [1] 1, Op.put "b" "t" [2] 1]).brk
          = some c2 ∧
        c2.mem (cache_after 2 [Op.put "a" "t" [1] 1, Op.put "b" "t" [2] 1]).brk = some e ∧
        (c2.cur_size > c2.max_size →
          2 ≤ (cache_list c2).length ∧
          ∃ t et a ea r, c2.tail = some t ∧ c2.mem t = some et ∧ et.prev = some a ∧
            c2.mem a = some ea ∧
            dllist_remove_tail
              { c2 with index := (hashtable_put c2.index e.path
                  (cache_after 2 [Op.put "a" "t" [1] 1, Op.put "b" "t" [2] 1]).brk) }
              = some r)) ∧
      (∃ c1 c2 e t et, alloc_entry (cache_create 0 0) "c" "t" [3] 1 = some (c1, 0) ∧
        dllist_insert_head c1 0 = some c2 ∧ c2.mem 0 = some e ∧
        c2.cur_size > c2.max_size ∧ c2.tail = some t ∧ c2.mem t = some et ∧
        et.prev = none ∧
        dllist_remove_tail { c2 with index := hashtable_put c2.index e.path 0 } = none ∧
        cache_put (cache_create 0 0) "c" "t" [3] 1 = none) :=
  remove_tail_defined 2 0 0 (by decide) (by decide)
    [Op.put "a" "t" [1] 1, Op.put "b" "t" [2] 1] _ rfl "c" "t" [3] 1 (by decide) (by decide)

/-- C17, the code at the failing input. When `rand()` returns 0 (or any multiple of
21) the number `get_d20` computes and sends is 0, outside 1..20; every number it
computes is between 0 and 20. -/
theorem get_d20_zero :
    get_d20 0 = 0 ∧ get_d20 42 = 0 ∧ ∀ r, get_d20 r ≤ 20 := by
  refine ⟨rfl, rfl, fun r => ?_⟩
  unfold get_d20
  omega

/-! ## `find_start_of_body` -/

theorem byte_is_drop (s : List Nat) (ptr k : Nat) (h : ptr ≤ s.length) (ch : Nat) :
    byte_is (s ++ [0]) (ptr + k) ch = byte_is (s.drop ptr ++ [0]) k ch := by
  unfold byte_is
  rw [← List.drop_append_of_le_length h, List.getElem?_drop]

theorem lf2_spec (t : List Nat) :
    and_then (byte_is (t ++ [0]) 0 10) (byte_is (t ++ [0]) 1 10)
      = some (decide (t.take 2 = [10, 10])) := by
  rcases t with _ | ⟨c, _ | ⟨d, t2⟩⟩
  · simp [byte_is, and_then]
  · by_cases hc : c = 10 <;> simp [byte_is, and_then, hc]
  · by_cases hc : c = 10 <;> by_cases hd : d = 10 <;> simp [byte_is, and_then, hc, hd]

theorem crlf2_spec (t : List Nat) :
    and_then (byte_is (t ++ [0]) 0 13)
        (and_then (byte_is (t ++ [0]) 1 10)
          (and_then (byte_is (t ++ [0]) 2 13) (byte_is (t ++ [0]) 3 10)))
      = some (decide (t.take 4 = [13, 10, 13, 10])) := by
  rcases t with _ | ⟨c, _ | ⟨d, _ | ⟨e, _ | ⟨f, t4⟩⟩⟩⟩
  · simp [byte_is, and_then]
  · by_cases hc : c = 13 <;> simp [byte_is, and_then, hc]
  · by_cases hc : c = 13 <;> by_cases hd : d = 10 <;> simp [byte_is, and_then, hc, hd]
  · by_cases hc : c = 13 <;> by_cases hd : d = 10 <;> by_cases he : e = 13 <;>
      simp [byte_is, and_then, hc, hd, he]
  · by_cases hc : c = 13 <;> by_cases hd : d = 10 <;> by_cases he : e = 13 <;>
      by_cases hf : f = 10 <;> simp [byte_is, and_then, hc, hd, he, hf]

theorem loop_step (s : List Nat) (hs : 0 ∉ s) (fuel ptr : Nat) (hp : ptr < s.length) :
    find_start_of_body_loop (s ++ [0]) (fuel + 1) ptr
      = match blank_line_at s ptr with
        | some k => some (some (ptr + k))
        | none => find_start_of_body_loop (s ++ [0]) fuel (ptr + 1) := by
  have hle : ptr ≤ s.length := Nat.le_of_lt hp
  obtain ⟨c, hc⟩ : ∃ c, s[ptr]? = some c := ⟨_, List.getElem?_eq_getElem hp⟩
  have hread : (s ++ [0])[ptr]? = some c := by
    rw [List.getElem?_append_left hp]; exact hc
  have hc0 : ¬ c = 0 := by
    rintro rfl
    exact hs (List.getElem?_mem hc)
  have hlf : and_then (byte_is (s ++ [0]) ptr 10) (byte_is (s ++ [0]) (ptr + 1) 10)
      = some (decide ((s.drop ptr).take 2 = [10, 10])) := by
    have h0 := byte_is_drop s ptr 0 hle 10
    rw [Nat.add_zero] at h0
    rw [h0, byte_is_drop s ptr 1 hle 10]
    exact lf2_spec _
  have hcr : and_then (byte_is (s ++ [0]) ptr 13)
        (and_then (byte_is (s ++ [0]) (ptr + 1) 10)
          (and_then (byte_is (s ++ [0]) (ptr + 2) 13) (byte_is (s ++ [0]) (ptr + 3) 10)))
      = some (decide ((s.drop ptr).take 4 = [13, 10, 13, 10])) := by
    have h0 := byte_is_drop s ptr 0 hle 13
    rw [Nat.add_zero] at h0
    rw [h0, byte_is_drop s ptr 1 hle 10, byte_is_drop s ptr 2 hle 13,
      byte_is_drop s ptr 3 hle 10]
    exact crlf2_spec _
  rw [find_start_of_body_loop, hread]
  simp only [hc0, if_false, hlf, hcr]
  unfold blank_line_at
  by_cases h2 : (s.drop ptr).take 2 = [10, 10]
  · simp [h2]
  · by_cases h4 : (s.drop ptr).take 4 = [13, 10, 13, 10]
    · simp [h2, h4]
    · simp [h2, h4]

theorem blank_line_at_end (s : List Nat) (i : Nat) (h : s.length ≤ i) :
    blank_line_at s i = none := by
  simp [blank_line_at, List.drop_eq_nil_of_le h]

theorem loop_spec (s : List Nat) (hs : 0 ∉ s) (fuel ptr : Nat) (hp : ptr ≤ s.length)
    (hf : s.length - ptr < fuel) (hbefore : ∀ i, i < ptr → blank_line_at s i = none) :
    ∃ r, find_start_of_body_loop (s ++ [0]) fuel ptr = some r ∧
      (r = none ↔ ∀ i, blank_line_at s i = none) ∧
      ∀ j, r = some j → ∃ i k, blank_line_at s i = some k ∧ j = i + k ∧
        ∀ i', i' < i → blank_line_at s i' = none := by
  induction fuel generalizing ptr with
  | zero => omega
  | succ fuel ih =>
    by_cases hlt : ptr < s.length
    · rw [loop_step s hs fuel ptr hlt]
      cases hb : blank_line_at s ptr with
      | some k =>
        refine ⟨some (ptr + k), rfl, ?_, ?_⟩
        · constructor
          · intro h; cases h
          · intro h
            rw [h ptr] at hb
            cases hb
        · intro j hj
          exact ⟨ptr, k, hb, (Option.some.inj hj).symm, hbefore⟩
      | none =>
        apply ih (ptr + 1) (by omega) (by omega)
        intro i hi
        by_cases hip : i = ptr
        · rw [hip]; exact hb
        · exact hbefore i (by omega)
    · have hpe : ptr = s.length := by omega
      have hread : (s ++ [0])[ptr]? = some 0 := by
        rw [hpe]; simp
      have hres : find_start_of_body_loop (s ++ [0]) (fuel + 1) ptr = some none := by
        rw [find_start_of_body_loop, hread]
        simp
      refine ⟨none, hres, ?_, ?_⟩
      · constructor
        · intro _ i
          by_cases hi : i < ptr
          · exact hbefore i hi
          · exact blank_line_at_end s i (by omega)
        · intro _; rfl
      · intro j hj; cases hj

/-- C18, the code at the failing input. With the bare carriage return as newline,
which the function's comment names, the end of the header is not found:
`find_start_of_body("GET / HTTP/1.1\r\rbody")` returns `NULL`, although the body
starts at index 16. With `"\n"` and with `"\r\n"` as newline the same header and
body give the index where the body starts (16 and 18). -/
theorem find_start_of_body_bare_cr :
    find_start_of_body (c_string "GET / HTTP/1.1\r\rbody") = some none ∧
      find_start_of_body (c_string "GET / HTTP/1.1\n\nbody") = some (some 16) ∧
      find_start_of_body (c_string "GET / HTTP/1.1\r\n\r\nbody") = some (some 18) := by
  decide

/-- C19. On a NUL-terminated string (the bytes `s`, none of them 0, followed by the
NUL), `find_start_of_body` never reads outside the string and its terminator (it
returns a result `r`); `r` is `NULL` exactly when neither `"\n\n"` nor `"\r\n\r\n"`
starts anywhere in `s`; and otherwise `r` points just past the pattern at the
earliest index `i` where one of the two starts. -/
theorem find_start_of_body_spec (s : List Nat) (hs : 0 ∉ s) :
    ∃ r, find_start_of_body (s ++ [0]) = some r ∧
      (r = none ↔ ∀ i, blank_line_at s i = none) ∧
      ∀ j, r = some j → ∃ i k, blank_line_at s i = some k ∧ j = i + k ∧
        ∀ i', i' < i → blank_line_at s i' = none := by
  unfold find_start_of_body
  apply loop_spec s hs _ 0 (Nat.zero_le _)
  · simp
  · intro i hi
    omega

/-- Witness for `find_start_of_body_spec`: a request with two header lines. -/
theorem find_start_of_body_spec_witness :
    ∃ r, find_start_of_body
        ((("POST /f HTTP/1.1\r\nContent-Length: 2\r\n\r\nhi").toList.map Char.toNat) ++ [0])
        = some r ∧
      (r = none ↔ ∀ i, blank_line_at
        (("POST /f HTTP/1.1\r\nContent-Length: 2\r\n\r\nhi").toList.map Char.toNat) i = none) ∧
      ∀ j, r = some j → ∃ i k, blank_line_at
          (("POST /f HTTP/1.1\r\nContent-Length: 2\r\n\r\nhi").toList.map Char.toNat) i
          = some k ∧ j = i + k ∧
        ∀ i', i' < i → blank_line_at
          (("POST /f HTTP/1.1\r\nContent-Length: 2\r\n\r\nhi").toList.map Char.toNat) i' = none :=
  find_start_of_body_spec _ (by decide)

end CWebServer
